import Mathlib

/-!
Verification of the constrained-model request sanitizer middleware.

The Go source (`middleware/constrained_model_sanitizer.go`) contains two
revisions of the same gin middleware, separated by a document marker:

* revision 1 (the multi-route revision): intercepts POST requests on the
  chat-completions / completions / responses / threads-runs / assistants-runs
  routes, classifies the body's `model` field, strips `temperature` / `top_p`
  and renames `max_tokens` per endpoint family;
* revision 2 (the chat-only revision): the same pipeline restricted to
  `/v1/chat/completions`, with a slightly different extension-list comparison
  inside `isConstrainedModel`.

Modelling conventions of this shallow embedding:

* Bytes and strings are `List Char`; the source operates on UTF-8 strings and
  all model behaviour relevant here is character-wise.
* `encoding/json` is embedded by an executable serializer (`marshalV`, which
  mirrors Go's `json.Marshal` for `map[string]any`: keys sorted, minimal
  whitespace, string escaping including Go's default HTML escaping) and an
  executable fuel-driven recursive-descent reader (`parseVal` / `parseTop`,
  which mirrors `json.Unmarshal` into `map[string]any`: a single JSON object,
  surrounding whitespace allowed, duplicate keys keep the last value,
  anything else is an error).  JSON numbers are modelled as integers
  (`Int`); the floating-point formatting of `float64` is outside the
  embedding.  `strings.ToLower`, `strings.EqualFold` and
  `strings.TrimSpace` / `unicode.IsSpace` are modelled on their ASCII
  behaviour, which covers every registry entry appearing in the source.
* A Go `map[string]any` is represented as an association list strictly
  sorted by key (`sortedKeys`); this canonical representation is exactly
  what serialization observes of a Go map (`json.Marshal` sorts keys).
* The gin handler is embedded as a function from the inbound request
  (method, path, environment extension list, body bytes, ContentLength) to
  the two observable body states: the bytes a downstream handler can read
  during `c.Next()` (`duringBody` / `duringLen`) and the bytes left on the
  request once the handler returns, after the deferred `restore(raw)` has
  run (`afterBody` / `afterLen`).  `io.ReadAll` leaves the body reader at
  end-of-file, so a path that reads the body and calls `c.Next()` without an
  explicit restore hands downstream an empty stream; the deferred restore
  runs only after `c.Next()` has returned.  Read errors are not modelled
  (the read always yields the inbound bytes).
-/

namespace OneApi

/-! ## Characters and small string utilities -/

/-- Decimal digit test, `'0'..'9'` by code point (Go scanner's digit test). -/
def isDig (c : Char) : Bool := 48 ≤ c.toNat && c.toNat ≤ 57

/-- JSON inter-token whitespace (RFC 8259, the set Go's scanner skips). -/
def jsonWsB (c : Char) : Bool := c = ' ' || c = '\t' || c = '\n' || c = '\r'

/-- Whitespace trimmed by `strings.TrimSpace` (ASCII part of `unicode.IsSpace`). -/
def goSpace (c : Char) : Bool :=
  c = ' ' || c = '\t' || c = '\n' || c = '\r' || c = '\x0b' || c = '\x0c'

/-- Drop leading JSON whitespace. -/
def skipWs : List Char → List Char
  | [] => []
  | c :: r => if jsonWsB c then skipWs r else c :: r

/-- Model of `strings.Contains hay needle`. -/
def hasSubstr (hay needle : List Char) : Bool :=
  needle.isPrefixOf hay ||
    match hay with
    | [] => false
    | _ :: t => hasSubstr t needle

/-- Model of `strings.TrimSpace`. -/
def trimSpace (s : List Char) : List Char :=
  (((s.dropWhile goSpace).reverse).dropWhile goSpace).reverse

/-- Model of `strings.ToLower` (ASCII). -/
def toLowerStr (s : List Char) : List Char := s.map Char.toLower

/-- Model of `strings.EqualFold` (ASCII simple fold). -/
def eqFold (a b : List Char) : Bool := toLowerStr a == toLowerStr b

/-- Model of `strings.Split s ","`. -/
def splitComma : List Char → List (List Char)
  | [] => [[]]
  | c :: rest =>
    if c = ',' then [] :: splitComma rest
    else
      match splitComma rest with
      | [] => [[c]]
      | g :: gs => (c :: g) :: gs

/-! ## The JSON value model -/

/-- JSON values as produced by `json.Unmarshal` into `any`, with numbers
restricted to integers.  Objects are association lists; the well-formedness
predicate below pins them to the strictly-key-sorted form in which a Go map
is observed by `json.Marshal`. -/
inductive Json where
  | null : Json
  | bool (b : Bool) : Json
  | num (n : Int) : Json
  | str (s : List Char) : Json
  | arr (xs : List Json) : Json
  | obj (kvs : List (List Char × Json)) : Json

/-- Go's `v != nil` test on an `any` holding a decoded JSON value. -/
def Json.isNull : Json → Bool
  | .null => true
  | _ => false

/-- Strict lexicographic order on keys by code point (the order in which
`json.Marshal` emits the keys of a `map[string]any`; UTF-8 byte order
coincides with code-point order). -/
def keyLt : List Char → List Char → Bool
  | [], [] => false
  | [], _ :: _ => true
  | _ :: _, [] => false
  | a :: as, b :: bs =>
    if a.toNat < b.toNat then true
    else if b.toNat < a.toNat then false
    else keyLt as bs

/-- Association-list lookup: `m[k]` on a Go map. -/
def lookupKV (kvs : List (List Char × Json)) (k : List Char) : Option Json :=
  match kvs with
  | [] => none
  | (k2, v) :: rest => if k2 = k then some v else lookupKV rest k

/-- Association-list removal: `delete(m, k)` on a Go map. -/
def eraseKV (kvs : List (List Char × Json)) (k : List Char) :
    List (List Char × Json) :=
  match kvs with
  | [] => []
  | (k2, v) :: rest => if k2 = k then eraseKV rest k else (k2, v) :: eraseKV rest k

/-- Order-preserving insertion-or-replacement: `m[k] = v` on a Go map, in the
key-sorted representation. -/
def insertKV (k : List Char) (v : Json) :
    List (List Char × Json) → List (List Char × Json)
  | [] => [(k, v)]
  | (k2, v2) :: rest =>
    if keyLt k k2 then (k, v) :: (k2, v2) :: rest
    else if keyLt k2 k then (k2, v2) :: insertKV k v rest
    else (k, v) :: rest

/-- Keys strictly ascending: the canonical shape of a marshalled Go map. -/
def sortedKeys : List (List Char × Json) → Bool
  | [] => true
  | [_] => true
  | (k1, _) :: (k2, v2) :: rest =>
    keyLt k1 k2 && sortedKeys ((k2, v2) :: rest)

mutual

/-- Well-formedness: every object in the value is strictly key-sorted. -/
def wfJ : Json → Bool
  | .null => true
  | .bool _ => true
  | .num _ => true
  | .str _ => true
  | .arr xs => wfL xs
  | .obj kvs => sortedKeys kvs && wfO kvs

/-- Well-formedness of each element of an array. -/
def wfL : List Json → Bool
  | [] => true
  | x :: xs => wfJ x && wfL xs

/-- Well-formedness of each value of an object. -/
def wfO : List (List Char × Json) → Bool
  | [] => true
  | (_, v) :: kvs => wfJ v && wfO kvs

end

/-! ## Serialization (model of `json.Marshal` on decoded values) -/

/-- Lower-case hexadecimal digit, as Go's encoder emits in `\u00xx`. -/
def hexDigit (n : Nat) : Char :=
  if n < 10 then Char.ofNat (48 + n) else Char.ofNat (87 + n)

/-- Per-character string escaping of Go's `encoding/json` encoder: quote,
backslash, `\n`, `\r`, `\t`, other control characters as `\u00xx`, and the
default HTML escaping of `<`, `>`, `&`. -/
def escChar (c : Char) : List Char :=
  if c = '"' then ['\\', '"']
  else if c = '\\' then ['\\', '\\']
  else if c = '\n' then ['\\', 'n']
  else if c = '\r' then ['\\', 'r']
  else if c = '\t' then ['\\', 't']
  else if c.toNat < 32 || c = '<' || c = '>' || c = '&' then
    ['\\', 'u', '0', '0', hexDigit (c.toNat / 16), hexDigit (c.toNat % 16)]
  else [c]

/-- Escape a whole string body (without the surrounding quotes). -/
def escStr : List Char → List Char
  | [] => []
  | c :: cs => escChar c ++ escStr cs

/-- Decimal digit character. -/
def digitChar (n : Nat) : Char := Char.ofNat (48 + n)

/-- Decimal notation worker, structurally recursive on a fuel bound so
that concrete serializations evaluate inside the kernel. -/
def natCharsAux : Nat → Nat → List Char
  | 0, _ => []
  | fuel + 1, n =>
    if n < 10 then [digitChar n]
    else natCharsAux fuel (n / 10) ++ [digitChar (n % 10)]

/-- Decimal notation of a natural number, most significant digit first. -/
def natChars (n : Nat) : List Char := natCharsAux (n + 1) n

/-- Decimal notation of an integer. -/
def intChars (i : Int) : List Char :=
  if i < 0 then '-' :: natChars i.natAbs else natChars i.natAbs

mutual

/-- Serializer for a decoded value: `json.Marshal` output (keys in stored
order, which well-formedness makes the sorted order; no whitespace). -/
def marshalV : Json → List Char
  | .null => 'n' :: 'u' :: 'l' :: 'l' :: []
  | .bool true => 't' :: 'r' :: 'u' :: 'e' :: []
  | .bool false => 'f' :: 'a' :: 'l' :: 's' :: 'e' :: []
  | .num i => intChars i
  | .str s => '"' :: (escStr s ++ ['"'])
  | .arr [] => ['[', ']']
  | .arr (v :: vs) => '[' :: (marshalV v ++ marshalArrTail vs ++ [']'])
  | .obj [] => ['{', '}']
  | .obj (kv :: kvs) => '{' :: (marshalMemb kv ++ marshalObjTail kvs ++ ['}'])

/-- Remaining array elements, each preceded by a comma. -/
def marshalArrTail : List Json → List Char
  | [] => []
  | v :: vs => ',' :: (marshalV v ++ marshalArrTail vs)

/-- One object member: quoted escaped key, colon, value. -/
def marshalMemb : List Char × Json → List Char
  | (k, v) => '"' :: (escStr k ++ '"' :: ':' :: marshalV v)

/-- Remaining object members, each preceded by a comma. -/
def marshalObjTail : List (List Char × Json) → List Char
  | [] => []
  | kv :: kvs => ',' :: (marshalMemb kv ++ marshalObjTail kvs)

end

/-! ## Reading (model of `json.Unmarshal` into `map[string]any`) -/

/-- Value of one hexadecimal digit, both cases accepted as Go does. -/
def hexVal (c : Char) : Option Nat :=
  if 48 ≤ c.toNat && c.toNat ≤ 57 then some (c.toNat - 48)
  else if 97 ≤ c.toNat && c.toNat ≤ 102 then some (c.toNat - 87)
  else if 65 ≤ c.toNat && c.toNat ≤ 70 then some (c.toNat - 55)
  else none

/-- Prepend a character to the string being decoded. -/
def consStr (c : Char) : Option (List Char × List Char) →
    Option (List Char × List Char)
  | some (s, r) => some (c :: s, r)
  | none => none

/-- Decode a JSON string body after the opening quote, consuming the closing
quote; handles the escape sequences Go's scanner accepts and rejects raw
control characters. -/
def parseStrBody : List Char → Option (List Char × List Char)
  | [] => none
  | c :: rest =>
    if c = '"' then some ([], rest)
    else if c = '\\' then
      match rest with
      | [] => none
      | e :: rest2 =>
        if e = '"' then consStr '"' (parseStrBody rest2)
        else if e = '\\' then consStr '\\' (parseStrBody rest2)
        else if e = '/' then consStr '/' (parseStrBody rest2)
        else if e = 'n' then consStr '\n' (parseStrBody rest2)
        else if e = 't' then consStr '\t' (parseStrBody rest2)
        else if e = 'r' then consStr '\r' (parseStrBody rest2)
        else if e = 'b' then consStr (Char.ofNat 8) (parseStrBody rest2)
        else if e = 'f' then consStr (Char.ofNat 12) (parseStrBody rest2)
        else if e = 'u' then
          match rest2 with
          | h1 :: h2 :: h3 :: h4 :: rest3 =>
            match hexVal h1, hexVal h2, hexVal h3, hexVal h4 with
            | some a, some b, some c2, some d =>
              consStr (Char.ofNat (((a * 16 + b) * 16 + c2) * 16 + d))
                (parseStrBody rest3)
            | _, _, _, _ => none
          | _ => none
        else none
    else if c.toNat < 32 then none
    else consStr c (parseStrBody rest)

/-- Leading run of decimal digits. -/
def takeDigs : List Char → List Char
  | [] => []
  | c :: r => if isDig c then c :: takeDigs r else []

/-- Input after the leading run of decimal digits. -/
def dropDigs : List Char → List Char
  | [] => []
  | c :: r => if isDig c then dropDigs r else c :: r

/-- Value of a digit string, most significant first. -/
def digitsVal (ds : List Char) : Nat :=
  ds.foldl (fun a c => a * 10 + (c.toNat - 48)) 0

/-- Decode an unsigned JSON integer: either a lone `0` or a nonzero leading
digit followed by digits (JSON forbids leading zeros, and the model keeps
Go's rejection of them; fractions and exponents are outside the integer
model). -/
def parseNatNum : List Char → Option (Nat × List Char)
  | [] => none
  | c :: r =>
    if c = '0' then
      match r with
      | [] => some (0, [])
      | c2 :: _ => if isDig c2 then none else some (0, r)
    else if isDig c then some (digitsVal (c :: takeDigs r), dropDigs r)
    else none

/-- Decode a JSON integer with optional sign. -/
def parseNum : List Char → Option (Int × List Char)
  | [] => none
  | c :: r =>
    if c = '-' then
      match parseNatNum r with
      | some (n, r2) => some (-(n : Int), r2)
      | none => none
    else
      match parseNatNum (c :: r) with
      | some (n, r2) => some ((n : Int), r2)
      | none => none

/-- Expect a literal tail (the `ull` of `null`, &c.). -/
def dropLit (lit s : List Char) : Option (List Char) :=
  if lit.isPrefixOf s then some (s.drop lit.length) else none

mutual

/-- Fuel-driven recursive-descent reader for one JSON value; every recursive
call decreases the fuel, and the top level supplies fuel ample for any input
it accepts (see `parseTop`). -/
def parseVal : Nat → List Char → Option (Json × List Char)
  | 0, _ => none
  | fuel + 1, s =>
    match skipWs s with
    | [] => none
    | c :: r =>
      if c = 'n' then
        match dropLit ['u', 'l', 'l'] r with
        | some r2 => some (.null, r2)
        | none => none
      else if c = 't' then
        match dropLit ['r', 'u', 'e'] r with
        | some r2 => some (.bool true, r2)
        | none => none
      else if c = 'f' then
        match dropLit ['a', 'l', 's', 'e'] r with
        | some r2 => some (.bool false, r2)
        | none => none
      else if c = '"' then
        match parseStrBody r with
        | some (s2, r2) => some (.str s2, r2)
        | none => none
      else if c = '[' then parseArrStart fuel (skipWs r)
      else if c = '{' then parseObjStart fuel (skipWs r)
      else
        match parseNum (c :: r) with
        | some (i, r2) => some (.num i, r2)
        | none => none

/-- After `[`: empty array or first element. -/
def parseArrStart : Nat → List Char → Option (Json × List Char)
  | 0, _ => none
  | fuel + 1, s =>
    match s with
    | [] => none
    | c :: r =>
      if c = ']' then some (.arr [], r)
      else
        match parseVal fuel (c :: r) with
        | some (v, r2) => parseArrRest fuel [v] r2
        | none => none

/-- After an array element: comma and next element, or closing bracket. -/
def parseArrRest : Nat → List Json → List Char → Option (Json × List Char)
  | 0, _, _ => none
  | fuel + 1, acc, s =>
    match skipWs s with
    | [] => none
    | c :: r =>
      if c = ',' then
        match parseVal fuel r with
        | some (v, r2) => parseArrRest fuel (acc ++ [v]) r2
        | none => none
      else if c = ']' then some (.arr acc, r)
      else none

/-- After `{`: empty object or first member. -/
def parseObjStart : Nat → List Char → Option (Json × List Char)
  | 0, _ => none
  | fuel + 1, s =>
    match s with
    | [] => none
    | c :: r =>
      if c = '}' then some (.obj [], r)
      else parseMemb fuel [] (c :: r)

/-- One object member: quoted key, colon, value; a later duplicate key
replaces the earlier value, as `json.Unmarshal` does on a map. -/
def parseMemb : Nat → List (List Char × Json) → List Char →
    Option (Json × List Char)
  | 0, _, _ => none
  | fuel + 1, acc, s =>
    match skipWs s with
    | [] => none
    | c :: r =>
      if c = '"' then
        match parseStrBody r with
        | some (k, r2) =>
          match skipWs r2 with
          | [] => none
          | c2 :: r3 =>
            if c2 = ':' then
              match parseVal fuel r3 with
              | some (v, r4) => parseObjRest fuel (insertKV k v acc) r4
              | none => none
            else none
        | none => none
      else none

/-- After an object member: comma and next member, or closing brace. -/
def parseObjRest : Nat → List (List Char × Json) → List Char →
    Option (Json × List Char)
  | 0, _, _ => none
  | fuel + 1, acc, s =>
    match skipWs s with
    | [] => none
    | c :: r =>
      if c = ',' then parseMemb fuel acc r
      else if c = '}' then some (.obj acc, r)
      else none

end

/-- Model of `json.Unmarshal(raw, &body)` for `body : map[string]any`: the
whole input must be one JSON object, possibly surrounded by whitespace.  The
fuel `2 * length + 2` exceeds the recursion depth of any accepting run. -/
def parseTop (s : List Char) : Option (List (List Char × Json)) :=
  match parseVal (2 * s.length + 2) s with
  | some (.obj kvs, rest) => if (skipWs rest).isEmpty then some kvs else none
  | some (_, _) => none
  | none => none

/-! ## The middleware (revision 1: multi-route) -/

/-- The request method the middleware acts on. -/
def postLit : List Char := "POST".data

/-- Field name `temperature`. -/
def tempKey : List Char := "temperature".data

/-- Field name `top_p`. -/
def topPKey : List Char := "top_p".data

/-- Field name `max_tokens`. -/
def maxTokKey : List Char := "max_tokens".data

/-- Field name `max_output_tokens`. -/
def maxOutKey : List Char := "max_output_tokens".data

/-- Field name `max_completion_tokens`. -/
def maxCompKey : List Char := "max_completion_tokens".data

/-- Field name `model`. -/
def modelKey : List Char := "model".data

/-- Path test `strings.HasPrefix(path, "/v1/chat/completions")`. -/
def chatPre (path : List Char) : Bool := "/v1/chat/completions".data.isPrefixOf path

/-- Path test `strings.HasPrefix(path, "/v1/completions")`. -/
def compPre (path : List Char) : Bool := "/v1/completions".data.isPrefixOf path

/-- Path test `strings.HasPrefix(path, "/v1/responses")`. -/
def respPre (path : List Char) : Bool := "/v1/responses".data.isPrefixOf path

/-- Path test `strings.HasPrefix(path, "/v1/threads/")`. -/
def threadsPre (path : List Char) : Bool := "/v1/threads/".data.isPrefixOf path

/-- Path test `strings.HasPrefix(path, "/v1/assistants")`. -/
def assistPre (path : List Char) : Bool := "/v1/assistants".data.isPrefixOf path

/-- The substring `/runs` tested with `strings.Contains`. -/
def runsLit : List Char := "/runs".data

/-- Revision 1's route gate: the five generation routes it intercepts. -/
def routeMatched (path : List Char) : Bool :=
  chatPre path || compPre path || respPre path ||
    (threadsPre path && hasSubstr path runsLit) ||
    (assistPre path && hasSubstr path runsLit)

/-- Built-in exact constrained-model names of revision 1. -/
def exactNames : List (List Char) :=
  ["gpt-4o".data, "gpt-4o-mini".data, "gpt-5".data, "o1".data,
   "o1-mini".data, "o3".data]

/-- Built-in constrained family prefixes (both revisions). -/
def prefixNames : List (List Char) :=
  ["gpt-4o-".data, "gpt-5-".data, "o1-".data, "o3-".data]

/-- Built-in exact constrained-model names of revision 2. -/
def exactNamesV2 : List (List Char) :=
  ["gpt-4o".data, "gpt-5".data, "o1".data, "o1-mini".data, "o3".data]

/-- Revision 1's `isConstrainedModel`: normalize the inbound value, try the
exact set, then the prefix set, then the `ONEAPI_CONSTRAINED_MODELS`
extension list, whose entries are trimmed and compared with
`strings.EqualFold` against the ORIGINAL (untrimmed) model string.  The
`extra` argument is the raw value of the environment variable. -/
def isConstrainedModel (extra model : List Char) : Bool :=
  let m := toLowerStr (trimSpace model)
  if m.isEmpty then false
  else if exactNames.any (fun e => e == m) then true
  else if prefixNames.any (fun p => p.isPrefixOf m) then true
  else
    let ex := trimSpace extra
    if ex.isEmpty then false
    else (splitComma ex).any (fun x => eqFold (trimSpace x) model)

/-- Revision 2's `isConstrainedModel`: as revision 1 but with its smaller
exact set and with extension entries compared, lower-cased and trimmed,
against the NORMALIZED model string. -/
def isConstrainedModelV2 (extra model : List Char) : Bool :=
  let m := toLowerStr (trimSpace model)
  if m.isEmpty then false
  else if exactNamesV2.any (fun e => e == m) then true
  else if prefixNames.any (fun p => p.isPrefixOf m) then true
  else
    let ex := trimSpace extra
    if ex.isEmpty then false
    else (splitComma ex).any (fun x => toLowerStr (trimSpace x) == m)

/-- The token-field rename of both revisions: set the destination field to
the `max_tokens` value unless the destination already exists (with any
value, null included), then delete `max_tokens`. -/
def renameTo (dst : List Char) (mt : Json) (b : List (List Char × Json)) :
    List (List Char × Json) :=
  eraseKV (if (lookupKV b dst).isSome then b else insertKV dst mt b) maxTokKey

/-- Revision 1's body rewrite on a constrained model: delete `temperature`
and `top_p`, then, when `max_tokens` is present and non-null, rename it by
the switch on the path (responses → `max_output_tokens`; threads or
assistants-runs → `max_completion_tokens`; chat or completions →
`max_completion_tokens`; otherwise leave it). -/
def sanitizeMap (path : List Char) (body : List (List Char × Json)) :
    List (List Char × Json) :=
  let b1 := eraseKV (eraseKV body tempKey) topPKey
  match lookupKV b1 maxTokKey with
  | none => b1
  | some mt =>
    if mt.isNull then b1
    else if respPre path then renameTo maxOutKey mt b1
    else if threadsPre path || (assistPre path && hasSubstr path runsLit) then
      renameTo maxCompKey mt b1
    else if chatPre path || compPre path then renameTo maxCompKey mt b1
    else b1

/-- Revision 2's body rewrite: delete `temperature` and `top_p`, then rename
a present non-null `max_tokens` to `max_completion_tokens` unconditionally. -/
def sanitizeMapV2 (body : List (List Char × Json)) :
    List (List Char × Json) :=
  let b1 := eraseKV (eraseKV body tempKey) topPKey
  match lookupKV b1 maxTokKey with
  | none => b1
  | some mt => if mt.isNull then b1 else renameTo maxCompKey mt b1

/-- The model string the handler extracts: `body["model"].(string)`, the
empty string when the field is absent or not a string. -/
def modelOf (kvs : List (List Char × Json)) : List Char :=
  match lookupKV kvs modelKey with
  | some (.str s) => s
  | _ => []

/-- The two observable body states a gin request passes through: what a
downstream handler can read during `c.Next()`, and what is left on the
request after the middleware returns (when the deferred `restore(raw)` has
run).  Each carries the accompanying `ContentLength`. -/
structure HandlerOut where
  duringBody : List Char
  duringLen : Int
  afterBody : List Char
  afterLen : Int
deriving DecidableEq

/-- Revision 1's handler, `ConstrainedModelSanitizer`.  `inLen` is the
inbound `ContentLength`.  Paths that return before reading leave the body
untouched; paths that read it leave the reader at end-of-file for
`c.Next()` (the deferred restore runs only after downstream has finished),
except the completed rewrite, which installs the patched bytes before
dispatching; the deferred `restore(raw)` then always puts the original raw
bytes back once the handler returns. -/
def constrainedModelSanitizer (method path extra inBody : List Char)
    (inLen : Int) : HandlerOut :=
  if method = postLit then
    if routeMatched path then
      if inBody.isEmpty then ⟨inBody, inLen, inBody, inLen⟩
      else
        match parseTop inBody with
        | none => ⟨[], inLen, inBody, (inBody.length : Int)⟩
        | some kvs =>
          if isConstrainedModel extra (modelOf kvs) then
            let out := marshalV (.obj (sanitizeMap path kvs))
            ⟨out, (out.length : Int), inBody, (inBody.length : Int)⟩
          else ⟨[], inLen, inBody, (inBody.length : Int)⟩
    else ⟨inBody, inLen, inBody, inLen⟩
  else ⟨inBody, inLen, inBody, inLen⟩

/-- Revision 2's handler (chat-completions only; its deferred restore is
registered before the empty-body check, so the after-state is the raw bytes
with their length on every read path, the empty one included). -/
def constrainedModelSanitizerV2 (method path extra inBody : List Char)
    (inLen : Int) : HandlerOut :=
  if method = postLit ∧ chatPre path = true then
    if inBody.isEmpty then ⟨inBody, (inBody.length : Int), inBody, (inBody.length : Int)⟩
    else
      match parseTop inBody with
      | none => ⟨[], inLen, inBody, (inBody.length : Int)⟩
      | some kvs =>
        if isConstrainedModelV2 extra (modelOf kvs) then
          let out := marshalV (.obj (sanitizeMapV2 kvs))
          ⟨out, (out.length : Int), inBody, (inBody.length : Int)⟩
        else ⟨[], inLen, inBody, (inBody.length : Int)⟩
  else ⟨inBody, inLen, inBody, inLen⟩

/-- The pure core transformation of revision 1 — parse, classify, rewrite,
serialize — as a function from inbound body bytes to outbound body bytes,
with every bail-out path (wrong method, unmatched route, unparsable body,
unconstrained model) passing the bytes through unchanged. -/
def sanitizeBytes (method path extra inBody : List Char) : List Char :=
  if method = postLit then
    if routeMatched path then
      match parseTop inBody with
      | none => inBody
      | some kvs =>
        if isConstrainedModel extra (modelOf kvs) then
          marshalV (.obj (sanitizeMap path kvs))
        else inBody
    else inBody
  else inBody

/-! ## Auxiliary definitions for the statements and proofs -/

/-- The responses-style endpoint family of the route gate. -/
def respStyle (path : List Char) : Bool := respPre path

/-- The run-style endpoint family of the route gate (threads runs and
assistants runs). -/
def runStyle (path : List Char) : Bool :=
  (threadsPre path && hasSubstr path runsLit) ||
    (assistPre path && hasSubstr path runsLit)

/-- The chat-style endpoint family of the route gate (chat completions and
legacy completions). -/
def chatStyle (path : List Char) : Bool := chatPre path || compPre path

/-- A position at which the reader of a number may stop: end of input or a
non-digit next character (true of every position following a serialized
value inside serializer output). -/
def numStop : List Char → Bool
  | [] => true
  | c :: _ => !(isDig c)

mutual

/-- Fuel sufficient for `parseVal` to read the serialization of a value. -/
def cost : Json → Nat
  | .null => 1
  | .bool _ => 1
  | .num _ => 1
  | .str _ => 1
  | .arr vs => 2 + costL vs
  | .obj kvs => 2 + costO kvs

/-- Fuel for the element loop of an array. -/
def costL : List Json → Nat
  | [] => 0
  | v :: vs => 2 + cost v + costL vs

/-- Fuel for the member loop of an object. -/
def costO : List (List Char × Json) → Nat
  | [] => 0
  | (_, v) :: kvs => 2 + cost v + costO kvs

end

/-! ## Lemmas: the key order -/

/-- Characters with equal code points are equal. -/
theorem charEqOfToNat {c d : Char} (h : c.toNat = d.toNat) : c = d := by
  apply Char.ext
  apply UInt32.ext
  exact h

/-- The key order is asymmetric. -/
theorem keyLt_asymm : ∀ a b : List Char, keyLt a b = true → keyLt b a = false
  | [], [] => by simp [keyLt]
  | [], _ :: _ => by simp [keyLt]
  | _ :: _, [] => by simp [keyLt]
  | a :: as, b :: bs => by
    intro h
    simp only [keyLt] at h ⊢
    rcases Nat.lt_trichotomy a.toNat b.toNat with hlt | heq | hgt
    · simp [hlt, Nat.lt_asymm hlt]
    · simp only [heq, Nat.lt_irrefl, if_false] at h ⊢
      exact keyLt_asymm as bs h
    · simp [hgt, Nat.lt_asymm hgt] at h

/-- Keys unrelated in both directions are equal. -/
theorem keyLt_conn : ∀ a b : List Char,
    keyLt a b = false → keyLt b a = false → a = b
  | [], [] => by simp
  | [], _ :: _ => by simp [keyLt]
  | _ :: _, [] => by simp [keyLt]
  | a :: as, b :: bs => by
    intro h1 h2
    simp only [keyLt] at h1 h2
    rcases Nat.lt_trichotomy a.toNat b.toNat with hlt | heq | hgt
    · simp [hlt] at h1
    · simp only [heq, Nat.lt_irrefl, if_false] at h1 h2
      rw [charEqOfToNat heq, keyLt_conn as bs h1 h2]
    · simp [hgt] at h2

/-- The key order is transitive. -/
theorem keyLt_trans : ∀ a b c : List Char,
    keyLt a b = true → keyLt b c = true → keyLt a c = true
  | [], [], _ => by simp [keyLt]
  | [], _ :: _, c => by
    intro _ h2
    cases c with
    | nil => simp [keyLt] at h2
    | cons x xs => simp [keyLt]
  | _ :: _, [], _ => by simp [keyLt]
  | _ :: _, _ :: _, [] => by intro _ h2; simp [keyLt] at h2
  | a :: as, b :: bs, c :: cs => by
    intro h1 h2
    simp only [keyLt] at h1 h2 ⊢
    rcases Nat.lt_trichotomy a.toNat b.toNat with hab | hab | hab <;>
      rcases Nat.lt_trichotomy b.toNat c.toNat with hbc | hbc | hbc
    · simp [Nat.lt_trans hab hbc]
    · simp [hbc ▸ hab]
    · simp [hab, Nat.lt_asymm hab] at h1
      simp [hbc, Nat.lt_asymm hbc] at h2
    · simp [hab ▸ hbc]
    · simp only [hab, hbc, Nat.lt_irrefl, if_false] at h1 h2 ⊢
      exact keyLt_trans as bs cs h1 h2
    · simp [hbc, Nat.lt_asymm hbc] at h2
    · simp [hab, Nat.lt_asymm hab] at h1
    · simp [hab, Nat.lt_asymm hab] at h1
    · simp [hab, Nat.lt_asymm hab] at h1

/-- The strict ascending-key relation on object members. -/
def kvRel (p q : List Char × Json) : Prop := keyLt p.1 q.1 = true

/-- The consecutive chain form of sortedness gives the all-pairs form. -/
theorem sortedKeys_pairwise : ∀ m, sortedKeys m = true → List.Pairwise kvRel m
  | [] => by intro _; exact List.Pairwise.nil
  | [p] => by intro _; exact List.pairwise_singleton _ _
  | p :: q :: rest => by
    intro h
    simp only [sortedKeys, Bool.and_eq_true] at h
    have ih := sortedKeys_pairwise (q :: rest) h.2
    refine List.Pairwise.cons ?_ ih
    intro r hr
    rcases List.mem_cons.mp hr with rfl | hr2
    · exact h.1
    · rcases ih with _ | ⟨hq, _⟩
      exact keyLt_trans _ _ _ h.1 (hq r hr2)

/-- The all-pairs form of sortedness gives the chain form back. -/
theorem pairwise_sortedKeys : ∀ m, List.Pairwise kvRel m → sortedKeys m = true
  | [] => by intro _; rfl
  | [_] => by intro _; rfl
  | p :: q :: rest => by
    intro h
    rcases h with _ | ⟨hp, htail⟩
    simp only [sortedKeys, Bool.and_eq_true]
    exact ⟨hp q (List.mem_cons_self _ _), pairwise_sortedKeys _ htail⟩

/-! ## Lemmas: association-list operations -/

/-- Removal yields a sublist. -/
theorem eraseKV_sublist : ∀ m k, List.Sublist (eraseKV m k) m
  | [], _ => List.Sublist.refl _
  | (k2, v) :: rest, k => by
    simp only [eraseKV]
    split
    · exact List.Sublist.cons _ (eraseKV_sublist rest k)
    · exact List.Sublist.cons₂ _ (eraseKV_sublist rest k)

/-- Looking up the removed key finds nothing. -/
theorem lookup_eraseKV_self : ∀ m k, lookupKV (eraseKV m k) k = none
  | [], _ => rfl
  | (k2, v) :: rest, k => by
    simp only [eraseKV]
    split
    · exact lookup_eraseKV_self rest k
    · simp only [lookupKV]
      rw [if_neg (by assumption)]
      exact lookup_eraseKV_self rest k

/-- Removal of one key does not change lookup of another. -/
theorem lookup_eraseKV_ne : ∀ m k k2, k2 ≠ k →
    lookupKV (eraseKV m k) k2 = lookupKV m k2
  | [], _, _ => by intro _; rfl
  | (k3, v) :: rest, k, k2 => by
    intro hne
    simp only [eraseKV]
    split
    · next heq =>
      simp only [lookupKV]
      rw [if_neg (by rw [heq]; exact fun hc => hne hc.symm)]
      exact lookup_eraseKV_ne rest k k2 hne
    · simp only [lookupKV]
      split
      · rfl
      · exact lookup_eraseKV_ne rest k k2 hne

/-- Removing an absent key changes nothing. -/
theorem eraseKV_absent : ∀ m k, lookupKV m k = none → eraseKV m k = m
  | [], _ => by intro _; rfl
  | (k2, v) :: rest, k => by
    intro h
    simp only [lookupKV] at h
    by_cases hk : k2 = k
    · rw [if_pos hk] at h; cases h
    · rw [if_neg hk] at h
      simp only [eraseKV, if_neg hk]
      rw [eraseKV_absent rest k h]

/-- Looking up the inserted key finds the inserted value. -/
theorem lookup_insertKV_self : ∀ m k v, lookupKV (insertKV k v m) k = some v
  | [], k, v => by simp [insertKV, lookupKV]
  | (k2, v2) :: rest, k, v => by
    simp only [insertKV]
    split
    · simp [lookupKV]
    · split
      · next h1 h2 =>
        simp only [lookupKV]
        rw [if_neg (fun hc => by subst hc; simp [keyLt_asymm _ _ h2] at h1 h2)]
        exact lookup_insertKV_self rest k v
      · simp [lookupKV]

/-- Insertion at one key does not change lookup of another. -/
theorem lookup_insertKV_ne : ∀ m k v k2, k2 ≠ k →
    lookupKV (insertKV k v m) k2 = lookupKV m k2
  | [], k, v, k2 => by
    intro hne
    simp only [insertKV, lookupKV]
    rw [if_neg (fun hc => hne hc.symm)]
  | (k3, v3) :: rest, k, v, k2 => by
    intro hne
    simp only [insertKV]
    split
    · simp only [lookupKV]
      rw [if_neg (fun hc => hne hc.symm)]
    · split
      · simp only [lookupKV]
        split
        · rfl
        · exact lookup_insertKV_ne rest k v k2 hne
      · next h1 h2 =>
        have hk : k3 = k := keyLt_conn _ _ (by simpa using h2) (by simpa using h1)
        simp only [lookupKV]
        rw [if_neg (fun hc => hne hc.symm), if_neg (fun hc : k3 = k2 => hne ((hc ▸ hk : k2 = k)))]

/-- Membership after insertion: the inserted pair or an original member. -/
theorem mem_insertKV : ∀ m k v p, p ∈ insertKV k v m → p = (k, v) ∨ p ∈ m
  | [], k, v, p => by
    intro h
    simp [insertKV] at h
    exact Or.inl h
  | (k2, v2) :: rest, k, v, p => by
    intro h
    simp only [insertKV] at h
    split at h
    · rcases List.mem_cons.mp h with rfl | h2
      · exact Or.inl rfl
      · exact Or.inr h2
    · split at h
      · rcases List.mem_cons.mp h with rfl | h2
        · exact Or.inr (List.mem_cons_self _ _)
        · rcases mem_insertKV rest k v p h2 with h3 | h3
          · exact Or.inl h3
          · exact Or.inr (List.mem_cons_of_mem _ h3)
      · rcases List.mem_cons.mp h with rfl | h2
        · exact Or.inl rfl
        · exact Or.inr (List.mem_cons_of_mem _ h2)

/-- Insertion preserves the all-pairs sorted order. -/
theorem insertKV_pairwise : ∀ m k v, List.Pairwise kvRel m →
    List.Pairwise kvRel (insertKV k v m)
  | [], k, v => by
    intro _
    simp [insertKV]
  | (k2, v2) :: rest, k, v => by
    intro h
    rcases h with _ | ⟨hhead, htail⟩
    simp only [insertKV]
    split
    · next hlt =>
      refine List.Pairwise.cons ?_ (List.Pairwise.cons hhead htail)
      intro p hp
      rcases List.mem_cons.mp hp with rfl | hp2
      · exact hlt
      · exact keyLt_trans _ _ _ hlt (hhead p hp2)
    · split
      · next h1 h2 =>
        refine List.Pairwise.cons ?_ (insertKV_pairwise rest k v htail)
        intro p hp
        rcases mem_insertKV rest k v p hp with rfl | hp2
        · exact h2
        · exact hhead p hp2
      · next h1 h2 =>
        have hk : k2 = k := keyLt_conn _ _ (by simpa using h2) (by simpa using h1)
        refine List.Pairwise.cons ?_ htail
        intro p hp
        exact hk ▸ hhead p hp
  termination_by m => m.length

/-- Insertion preserves the chain form of sortedness. -/
theorem insertKV_sorted (m : List (List Char × Json)) (k : List Char)
    (v : Json) (h : sortedKeys m = true) :
    sortedKeys (insertKV k v m) = true :=
  pairwise_sortedKeys _ (insertKV_pairwise m k v (sortedKeys_pairwise m h))

/-- Removal preserves the chain form of sortedness. -/
theorem eraseKV_sorted (m : List (List Char × Json)) (k : List Char)
    (h : sortedKeys m = true) : sortedKeys (eraseKV m k) = true :=
  pairwise_sortedKeys _
    ((sortedKeys_pairwise m h).sublist (eraseKV_sublist m k))

/-- Removal preserves well-formedness of the member values. -/
theorem eraseKV_wfO : ∀ m k, wfO m = true → wfO (eraseKV m k) = true
  | [], _ => by intro _; rfl
  | (k2, v2) :: rest, k => by
    intro h
    simp only [wfO, Bool.and_eq_true] at h
    simp only [eraseKV]
    split
    · exact eraseKV_wfO rest k h.2
    · simp only [wfO, Bool.and_eq_true]
      exact ⟨h.1, eraseKV_wfO rest k h.2⟩

/-- Insertion of a well-formed value preserves well-formedness of the
member values. -/
theorem insertKV_wfO : ∀ m k v, wfO m = true → wfJ v = true →
    wfO (insertKV k v m) = true
  | [], k, v => by
    intro _ hv
    simp [insertKV, wfO, hv]
  | (k2, v2) :: rest, k, v => by
    intro h hv
    simp only [wfO, Bool.and_eq_true] at h
    simp only [insertKV]
    split
    · simp only [wfO, Bool.and_eq_true]
      exact ⟨hv, h.1, h.2⟩
    · split
      · simp only [wfO, Bool.and_eq_true]
        exact ⟨h.1, insertKV_wfO rest k v h.2 hv⟩
      · simp only [wfO, Bool.and_eq_true]
        exact ⟨hv, h.2⟩

/-- Inserting a key above every present key appends at the end. -/
theorem insertKV_append : ∀ m k v, (∀ p ∈ m, keyLt p.1 k = true) →
    insertKV k v m = m ++ [(k, v)]
  | [], _, _ => by intro _; rfl
  | (k2, v2) :: rest, k, v => by
    intro h
    have hk2 : keyLt k2 k = true := h (k2, v2) (List.mem_cons_self _ _)
    simp only [insertKV]
    rw [if_neg (by simp [keyLt_asymm _ _ hk2]), if_pos hk2]
    rw [insertKV_append rest k v (fun p hp => h p (List.mem_cons_of_mem _ hp))]
    rfl

/-! ## Lemmas: characters and digits -/

/-- Evaluation of `Char.ofNat` below the surrogate range. -/
theorem charToNatOfNat (n : Nat) (h : n < 55296) : (Char.ofNat n).toNat = n := by
  have hv : Nat.isValidChar n := Or.inl h
  simp only [Char.ofNat, hv, dif_pos, Char.ofNatAux, Char.toNat]
  simp [UInt32.toNat, UInt32.ofNat', BitVec.toNat_ofNat]

/-- The code-point bounds behind `isDig`. -/
theorem isDig_toNat {c : Char} (h : isDig c = true) :
    48 ≤ c.toNat ∧ c.toNat ≤ 57 := by
  simp only [isDig, Bool.and_eq_true, decide_eq_true_eq] at h
  exact h

/-- A digit differs from any character outside the digit code range. -/
theorem isDig_ne {c : Char} (h : isDig c = true) (d : Char)
    (hd : 48 ≤ d.toNat → d.toNat ≤ 57 → False) : c ≠ d := by
  intro hc
  subst hc
  rcases isDig_toNat h with ⟨h1, h2⟩
  exact hd h1 h2

/-- A digit is not JSON whitespace. -/
theorem isDig_notWs {c : Char} (h : isDig c = true) : jsonWsB c = false := by
  rcases isDig_toNat h with ⟨h1, _⟩
  simp only [jsonWsB, Bool.or_eq_false_iff, decide_eq_false_iff_not]
  refine ⟨⟨⟨?_, ?_⟩, ?_⟩, ?_⟩ <;> intro hc <;> subst hc <;>
    exact absurd h1 (by decide)

/-- Digit characters carry their value in their code point. -/
theorem digitChar_toNat (d : Nat) (h : d < 10) :
    (digitChar d).toNat = 48 + d := charToNatOfNat _ (by omega)

/-- Digit characters pass the digit test. -/
theorem digitChar_isDig (d : Nat) (h : d < 10) : isDig (digitChar d) = true := by
  simp only [isDig, digitChar_toNat d h, Bool.and_eq_true, decide_eq_true_eq]
  omega

/-- Skipping whitespace is the identity on a non-whitespace head. -/
theorem skipWs_not {c : Char} (r : List Char) (h : jsonWsB c = false) :
    skipWs (c :: r) = c :: r := by
  simp [skipWs, h]

/-- Hexadecimal reading inverts hexadecimal printing. -/
theorem hexVal_hexDigit (n : Nat) (h : n < 16) : hexVal (hexDigit n) = some n := by
  by_cases h10 : n < 10
  · have ht : (Char.ofNat (48 + n)).toNat = 48 + n := charToNatOfNat _ (by omega)
    simp only [hexDigit, if_pos h10, hexVal, ht]
    rw [if_pos (by simp only [Bool.and_eq_true, decide_eq_true_eq]; omega)]
    simp
  · have ht : (Char.ofNat (87 + n)).toNat = 87 + n := charToNatOfNat _ (by omega)
    simp only [hexDigit, if_neg h10, hexVal, ht]
    rw [if_neg (by simp only [Bool.and_eq_true, decide_eq_true_eq]; omega),
      if_pos (by simp only [Bool.and_eq_true, decide_eq_true_eq]; omega)]
    simp

/-! ## Lemmas: string escaping round-trip -/

/-- Reading a string body inverts escaping, member by member. -/
theorem parseStrBody_escStr : ∀ s rest,
    parseStrBody (escStr s ++ '"' :: rest) = some (s, rest)
  | [], rest => by
    show parseStrBody ('"' :: rest) = some ([], rest)
    rw [parseStrBody.eq_def]
    simp
  | c :: cs, rest => by
    have ih := parseStrBody_escStr cs rest
    simp only [escStr, List.append_assoc]
    unfold escChar
    split_ifs with h1 h2 h3 h4 h5 h6
    · subst h1
      rw [parseStrBody.eq_def]
      simp [ih, consStr]
    · subst h2
      rw [parseStrBody.eq_def]
      simp [ih, consStr]
    · subst h3
      rw [parseStrBody.eq_def]
      simp [ih, consStr]
    · subst h4
      rw [parseStrBody.eq_def]
      simp [ih, consStr]
    · subst h5
      rw [parseStrBody.eq_def]
      simp [ih, consStr]
    · have hb : c.toNat < 63 := by
        simp only [Bool.or_eq_true, decide_eq_true_eq] at h6
        rcases h6 with ((h | h) | h) | h
        · omega
        · subst h; decide
        · subst h; decide
        · subst h; decide
      have hd1 : hexVal (hexDigit (c.toNat / 16)) = some (c.toNat / 16) :=
        hexVal_hexDigit _ (by omega)
      have hd2 : hexVal (hexDigit (c.toNat % 16)) = some (c.toNat % 16) :=
        hexVal_hexDigit _ (by omega)
      have h0 : hexVal '0' = some 0 := rfl
      rw [parseStrBody.eq_def]
      simp [h0, hd1, hd2, ih, consStr]
      have harith : c.toNat / 16 * 16 + c.toNat % 16 = c.toNat := by omega
      rw [harith, Char.ofNat_toNat]
    · have hge : ¬ c.toNat < 32 := fun hc => h6 (by simp [hc])
      rw [parseStrBody.eq_def]
      simp only [List.cons_append, List.nil_append, if_neg h1, if_neg h2,
        if_neg hge, ih, consStr]

/-! ## Lemmas: number round-trip -/

/-- Ample fuel is interchangeable in the decimal notation worker. -/
theorem natCharsAux_fuel : ∀ (n fuel : Nat), n < fuel →
    natCharsAux fuel n = natChars n := by
  intro n
  induction n using Nat.strong_induction_on with
  | _ n ih =>
    intro fuel hf
    obtain ⟨f, rfl⟩ : ∃ f, fuel = f + 1 := ⟨fuel - 1, by omega⟩
    by_cases h10 : n < 10
    · simp [natCharsAux, natChars, h10]
    · have hlt : n / 10 < n := Nat.div_lt_self (by omega) (by omega)
      simp only [natCharsAux, natChars, if_neg h10]
      rw [ih (n / 10) hlt f (by omega), ih (n / 10) hlt n (by omega)]

/-- Unfolding equation of decimal notation. -/
theorem natChars_eq (n : Nat) : natChars n =
    if n < 10 then [digitChar n]
    else natChars (n / 10) ++ [digitChar (n % 10)] := by
  by_cases h10 : n < 10
  · simp [natChars, natCharsAux, h10]
  · rw [if_neg h10]
    show natCharsAux (n + 1) n = natChars (n / 10) ++ [digitChar (n % 10)]
    rw [natCharsAux, if_neg h10,
      natCharsAux_fuel (n / 10) n (Nat.div_lt_self (by omega) (by omega))]

/-- Decimal printing yields a nonempty string. -/
theorem natChars_ne_nil (n : Nat) : natChars n ≠ [] := by
  rw [natChars_eq]
  split
  · simp
  · simp [natChars_ne_nil (n / 10)]

/-- Every character of a printed natural number is a digit. -/
theorem natChars_digits (n : Nat) : ∀ c ∈ natChars n, isDig c = true := by
  induction n using Nat.strong_induction_on with
  | _ n ih =>
    rw [natChars_eq]
    split
    · next h =>
      intro c hc
      rcases List.mem_singleton.mp hc with rfl
      exact digitChar_isDig n h
    · next h =>
      intro c hc
      rcases List.mem_append.mp hc with hc2 | hc2
      · exact ih (n / 10) (Nat.div_lt_self (by omega) (by omega)) c hc2
      · rcases List.mem_singleton.mp hc2 with rfl
        exact digitChar_isDig _ (Nat.mod_lt _ (by omega))

/-- Folding digits after an append. -/
theorem digitsVal_append (xs : List Char) (d : Char) :
    digitsVal (xs ++ [d]) = digitsVal xs * 10 + (d.toNat - 48) := by
  simp [digitsVal, List.foldl_append]

/-- Digit folding inverts decimal printing. -/
theorem digitsVal_natChars (n : Nat) : digitsVal (natChars n) = n := by
  induction n using Nat.strong_induction_on with
  | _ n ih =>
    rw [natChars_eq]
    split
    · next h =>
      simp [digitsVal, digitChar_toNat n h]
    · next h =>
      rw [digitsVal_append, ih (n / 10) (Nat.div_lt_self (by omega) (by omega)),
        digitChar_toNat _ (Nat.mod_lt _ (by omega))]
      omega

/-- The leading digit of a positive number is not zero. -/
theorem natChars_head_pos (n : Nat) :
    n ≠ 0 → ∃ c t, natChars n = c :: t ∧ c ≠ '0' := by
  induction n using Nat.strong_induction_on with
  | _ n ih =>
    intro hn
    rw [natChars_eq]
    split
    · next h =>
      refine ⟨digitChar n, [], rfl, fun hc => ?_⟩
      have h2 := digitChar_toNat n h
      rw [hc] at h2
      have h3 : ('0' : Char).toNat = 48 := rfl
      omega
    · next h =>
      rcases ih (n / 10) (Nat.div_lt_self (by omega) (by omega)) (by omega)
        with ⟨c, t, hct, hc0⟩
      exact ⟨c, t ++ [digitChar (n % 10)], by rw [hct]; rfl, hc0⟩

/-- Taking digits from printed digits followed by a stop position. -/
theorem takeDigs_append : ∀ ds rest, (∀ c ∈ ds, isDig c = true) →
    numStop rest = true → takeDigs (ds ++ rest) = ds
  | [], rest => by
    intro _ hr
    cases rest with
    | nil => rfl
    | cons c r =>
      simp only [numStop, Bool.not_eq_true'] at hr
      simp [takeDigs, hr]
  | d :: ds, rest => by
    intro hds hr
    simp only [List.cons_append, takeDigs,
      hds d (List.mem_cons_self _ _), if_true]
    exact congrArg (fun l => d :: l)
      (takeDigs_append ds rest (fun c hc => hds c (List.mem_cons_of_mem _ hc)) hr)

/-- Dropping digits from printed digits followed by a stop position. -/
theorem dropDigs_append : ∀ ds rest, (∀ c ∈ ds, isDig c = true) →
    numStop rest = true → dropDigs (ds ++ rest) = rest
  | [], rest => by
    intro _ hr
    cases rest with
    | nil => rfl
    | cons c r =>
      simp only [numStop, Bool.not_eq_true'] at hr
      simp [dropDigs, hr]
  | d :: ds, rest => by
    intro hds hr
    simp only [List.cons_append, dropDigs,
      hds d (List.mem_cons_self _ _), if_true]
    exact dropDigs_append ds rest (fun c hc => hds c (List.mem_cons_of_mem _ hc)) hr

/-- Unsigned reading inverts decimal printing up to a stop position. -/
theorem parseNatNum_natChars (n : Nat) (rest : List Char)
    (hr : numStop rest = true) :
    parseNatNum (natChars n ++ rest) = some (n, rest) := by
  by_cases hn : n = 0
  · subst hn
    have h0 : natChars 0 = ['0'] := rfl
    rw [h0]
    cases rest with
    | nil => rfl
    | cons c r =>
      simp only [numStop, Bool.not_eq_true'] at hr
      simp [parseNatNum, hr]
  · rcases natChars_head_pos n hn with ⟨c, t, hct, hc0⟩
    have hdigs := natChars_digits n
    rw [hct] at hdigs
    have hdc : isDig c = true := hdigs c (List.mem_cons_self _ _)
    have hdt : ∀ x ∈ t, isDig x = true := fun x hx =>
      hdigs x (List.mem_cons_of_mem _ hx)
    rw [hct]
    simp only [List.cons_append, parseNatNum, if_neg hc0, hdc, if_true,
      takeDigs_append t rest hdt hr, dropDigs_append t rest hdt hr]
    rw [← hct, digitsVal_natChars]

/-- Signed reading inverts integer printing up to a stop position. -/
theorem parseNum_intChars (i : Int) (rest : List Char)
    (hr : numStop rest = true) :
    parseNum (intChars i ++ rest) = some (i, rest) := by
  by_cases hneg : i < 0
  · simp only [intChars, if_pos hneg, List.cons_append, parseNum, if_pos rfl,
      parseNatNum_natChars i.natAbs rest hr]
    have : -((i.natAbs : Nat) : Int) = i := by omega
    rw [this]
    simp
  · simp only [intChars, if_neg hneg]
    rcases List.exists_cons_of_ne_nil (natChars_ne_nil i.natAbs) with ⟨c, t, hct⟩
    have hdc : isDig c = true :=
      natChars_digits i.natAbs c (by rw [hct]; exact List.mem_cons_self _ _)
    have hcm : c ≠ '-' := isDig_ne hdc '-' (by decide)
    rw [hct, List.cons_append]
    simp only [parseNum, if_neg hcm, ← List.cons_append, ← hct,
      parseNatNum_natChars i.natAbs rest hr]
    have : ((i.natAbs : Nat) : Int) = i := by omega
    rw [this]

/-! ## Lemmas: reading back serializer output -/

/-- Every value needs at least one unit of fuel. -/
theorem cost_pos : ∀ v : Json, 1 ≤ cost v
  | .null => by simp [cost]
  | .bool _ => by simp [cost]
  | .num _ => by simp [cost]
  | .str _ => by simp [cost]
  | .arr _ => by simp [cost]; omega
  | .obj _ => by simp [cost]; omega

/-- An array element costs no more than the element loop. -/
theorem costL_mem : ∀ vs (v : Json), v ∈ vs → cost v ≤ costL vs
  | [], v => by intro h; cases h
  | x :: xs, v => by
    intro h
    rcases List.mem_cons.mp h with rfl | h2
    · simp [costL]; omega
    · have := costL_mem xs v h2
      simp [costL]; omega

/-- An object value costs no more than the member loop. -/
theorem costO_mem : ∀ kvs (k : List Char) (v : Json), (k, v) ∈ kvs →
    cost v ≤ costO kvs
  | [], _, _ => by intro h; cases h
  | (k2, v2) :: rest, k, v => by
    intro h
    rcases List.mem_cons.mp h with heq | h2
    · cases heq; simp [costO]; omega
    · have := costO_mem rest k v h2
      simp [costO]; omega

/-- Element-wise reading of array well-formedness. -/
theorem wfL_mem : ∀ vs (v : Json), wfL vs = true → v ∈ vs → wfJ v = true
  | [], v => by intro _ h; cases h
  | x :: xs, v => by
    intro hwf h
    simp only [wfL, Bool.and_eq_true] at hwf
    rcases List.mem_cons.mp h with rfl | h2
    · exact hwf.1
    · exact wfL_mem xs v hwf.2 h2

/-- Element-wise reading of object value well-formedness. -/
theorem wfO_mem : ∀ kvs (k : List Char) (v : Json), wfO kvs = true →
    (k, v) ∈ kvs → wfJ v = true
  | [], _, _ => by intro _ h; cases h
  | (k2, v2) :: rest, k, v => by
    intro hwf h
    simp only [wfO, Bool.and_eq_true] at hwf
    rcases List.mem_cons.mp h with heq | h2
    · cases heq; exact hwf.1
    · exact wfO_mem rest k v hwf.2 h2

/-- Building array well-formedness from its elements. -/
theorem wfL_forall : ∀ vs : List Json, (∀ v ∈ vs, wfJ v = true) →
    wfL vs = true
  | [] => by intro _; rfl
  | x :: xs => by
    intro h
    simp only [wfL, Bool.and_eq_true]
    exact ⟨h x (List.mem_cons_self _ _),
      wfL_forall xs (fun v hv => h v (List.mem_cons_of_mem _ hv))⟩

/-- Array-tail serializer output is a number stop. -/
theorem numStop_arrTail (vs : List Json) (rest : List Char) :
    numStop (marshalArrTail vs ++ ']' :: rest) = true := by
  cases vs with
  | nil => rfl
  | cons v vs => rfl

/-- Object-tail serializer output is a number stop. -/
theorem numStop_objTail (kvs : List (List Char × Json)) (rest : List Char) :
    numStop (marshalObjTail kvs ++ '}' :: rest) = true := by
  cases kvs with
  | nil => rfl
  | cons kv kvs => rfl

/-- The serializer's first character: never whitespace, never a closing
bracket. -/
theorem marshal_head : ∀ v : Json, ∃ c t, marshalV v = c :: t ∧
    jsonWsB c = false ∧ c ≠ ']' := by
  intro v
  cases v with
  | null => exact ⟨'n', _, rfl, by decide, by decide⟩
  | bool b => cases b with
    | true => exact ⟨'t', _, rfl, by decide, by decide⟩
    | false => exact ⟨'f', _, rfl, by decide, by decide⟩
  | num i =>
    by_cases hneg : i < 0
    · exact ⟨'-', natChars i.natAbs, by simp [marshalV, intChars, hneg],
        by decide, by decide⟩
    · rcases List.exists_cons_of_ne_nil (natChars_ne_nil i.natAbs) with
        ⟨c, t, hct⟩
      have hdc : isDig c = true :=
        natChars_digits i.natAbs c (by rw [hct]; exact List.mem_cons_self _ _)
      refine ⟨c, t, ?_, isDig_notWs hdc, isDig_ne hdc ']' (by decide)⟩
      simp [marshalV, intChars, hneg, hct]
  | str s => exact ⟨'"', _, rfl, by decide, by decide⟩
  | arr vs => cases vs with
    | nil => exact ⟨'[', _, rfl, by decide, by decide⟩
    | cons v vs => exact ⟨'[', _, rfl, by decide, by decide⟩
  | obj kvs => cases kvs with
    | nil => exact ⟨'{', _, rfl, by decide, by decide⟩
    | cons kv kvs => exact ⟨'{', _, rfl, by decide, by decide⟩

/-- Reading back the comma-separated tail of a serialized array. -/
theorem RTArrTail : ∀ (vs : List Json) (acc : List Json) (fuel : Nat)
    (rest : List Char),
    (∀ e ∈ vs, ∀ f2 r2, numStop r2 = true → cost e ≤ f2 →
      parseVal f2 (marshalV e ++ r2) = some (e, r2)) →
    1 + costL vs ≤ fuel →
    parseArrRest fuel acc (marshalArrTail vs ++ ']' :: rest) =
      some (.arr (acc ++ vs), rest)
  | [], acc, fuel, rest => by
    intro _ hfuel
    obtain ⟨f, rfl⟩ : ∃ f, fuel = f + 1 := ⟨fuel - 1, by omega⟩
    simp only [marshalArrTail, List.nil_append, List.append_nil]
    rw [parseArrRest.eq_def]
    simp [skipWs, jsonWsB]
  | v :: vs, acc, fuel, rest => by
    intro hels hfuel
    obtain ⟨f, rfl⟩ : ∃ f, fuel = f + 1 := ⟨fuel - 1, by omega⟩
    have hcont : numStop (marshalArrTail vs ++ ']' :: rest) = true :=
      numStop_arrTail vs rest
    have hcostv : cost v ≤ f := by
      simp only [costL] at hfuel; omega
    have hv := hels v (List.mem_cons_self _ _) f
      (marshalArrTail vs ++ ']' :: rest) hcont hcostv
    have hrec := RTArrTail vs (acc ++ [v]) f rest
      (fun e he => hels e (List.mem_cons_of_mem _ he))
      (by simp only [costL] at hfuel ⊢; omega)
    simp only [marshalArrTail, List.cons_append, List.append_assoc]
    rw [parseArrRest.eq_def]
    simp only [skipWs, jsonWsB]
    simp only [List.append_assoc] at hv
    simp [hv, hrec]

/-- Reading back the members of a serialized object, accumulating with
ordered insertion. -/
theorem RTMembTail : ∀ (ps : List (List Char × Json)) (k : List Char)
    (v : Json) (acc : List (List Char × Json)) (fuel : Nat) (rest : List Char),
    (∀ p ∈ (k, v) :: ps, ∀ f2 r2, numStop r2 = true → cost p.2 ≤ f2 →
      parseVal f2 (marshalV p.2 ++ r2) = some (p.2, r2)) →
    List.Pairwise kvRel (acc ++ (k, v) :: ps) →
    costO ((k, v) :: ps) ≤ fuel →
    parseMemb fuel acc (marshalMemb (k, v) ++ marshalObjTail ps ++ '}' :: rest) =
      some (.obj (acc ++ (k, v) :: ps), rest)
  | [], k, v, acc, fuel, rest => by
    intro hels hpair hfuel
    simp only [costO] at hfuel
    obtain ⟨f, rfl⟩ : ∃ f, fuel = f + 1 := ⟨fuel - 1, by omega⟩
    have hcostv : cost v ≤ f := by omega
    have hf1 : 1 ≤ f := le_trans (cost_pos v) hcostv
    obtain ⟨g, rfl⟩ : ∃ g, f = g + 1 := ⟨f - 1, by omega⟩
    have hv := hels (k, v) (List.mem_cons_self _ _) (g + 1)
      ('}' :: rest) (by rfl) hcostv
    have hins : insertKV k v acc = acc ++ [(k, v)] := by
      apply insertKV_append
      intro p hp
      exact (List.pairwise_append.mp hpair).2.2 p hp (k, v)
        (List.mem_cons_self _ _)
    have hstr := parseStrBody_escStr k (':' :: (marshalV v ++ '}' :: rest))
    simp only [marshalMemb, marshalObjTail, List.cons_append, List.nil_append,
      List.append_assoc]
    rw [parseMemb.eq_def]
    simp only [skipWs, jsonWsB]
    simp [hstr]
    have hv2 : parseVal (g + 1) (marshalV v ++ '}' :: rest) =
        some (v, '}' :: rest) := hv
    simp [skipWs, jsonWsB, hv2, hins]
    rw [parseObjRest.eq_def]
    simp [skipWs, jsonWsB]
  | (k2, v2) :: ps, k, v, acc, fuel, rest => by
    intro hels hpair hfuel
    simp only [costO] at hfuel
    obtain ⟨f, rfl⟩ : ∃ f, fuel = f + 1 := ⟨fuel - 1, by omega⟩
    have hcostv : cost v ≤ f := by omega
    have hf1 : 1 ≤ f := le_trans (cost_pos v) hcostv
    obtain ⟨g, rfl⟩ : ∃ g, f = g + 1 := ⟨f - 1, by omega⟩
    have hcont : numStop (marshalObjTail ((k2, v2) :: ps) ++ '}' :: rest) =
        true := numStop_objTail _ rest
    have hv := hels (k, v) (List.mem_cons_self _ _) (g + 1)
      (marshalObjTail ((k2, v2) :: ps) ++ '}' :: rest) hcont hcostv
    have hins : insertKV k v acc = acc ++ [(k, v)] := by
      apply insertKV_append
      intro p hp
      exact (List.pairwise_append.mp hpair).2.2 p hp (k, v)
        (List.mem_cons_self _ _)
    have hpair2 : List.Pairwise kvRel ((acc ++ [(k, v)]) ++ (k2, v2) :: ps) := by
      have : (acc ++ [(k, v)]) ++ (k2, v2) :: ps = acc ++ (k, v) :: (k2, v2) :: ps := by
        simp
      rw [this]
      exact hpair
    have hrec := RTMembTail ps k2 v2 (acc ++ [(k, v)]) g rest
      (fun p hp => hels p (List.mem_cons_of_mem _ hp)) hpair2
      (by simp only [costO] at hfuel ⊢; omega)
    have hstr := parseStrBody_escStr k (':' :: (marshalV v ++
      (marshalObjTail ((k2, v2) :: ps) ++ '}' :: rest)))
    simp only [marshalMemb, List.cons_append, List.append_assoc]
    rw [parseMemb.eq_def]
    simp only [skipWs, jsonWsB]
    simp only [List.append_assoc] at hv hstr
    simp [hstr]
    have hv2 : parseVal (g + 1)
        (marshalV v ++ (marshalObjTail ((k2, v2) :: ps) ++ '}' :: rest)) =
        some (v, marshalObjTail ((k2, v2) :: ps) ++ '}' :: rest) := hv
    simp [skipWs, jsonWsB, hv2, hins]
    rw [parseObjRest.eq_def]
    simp only [marshalObjTail, List.cons_append, List.append_assoc]
    simp only [List.append_assoc] at hrec
    simp [skipWs, jsonWsB, hrec, List.append_assoc]

/-- The first character of a serialized integer dodges every non-number
branch of the reader. -/
theorem numHead_facts (i : Int) : ∃ c t, intChars i = c :: t ∧
    jsonWsB c = false ∧ c ≠ 'n' ∧ c ≠ 't' ∧ c ≠ 'f' ∧ c ≠ '"' ∧
    c ≠ '[' ∧ c ≠ '{' := by
  by_cases hneg : i < 0
  · exact ⟨'-', natChars i.natAbs, by simp [intChars, hneg], by decide,
      by decide, by decide, by decide, by decide, by decide, by decide⟩
  · rcases List.exists_cons_of_ne_nil (natChars_ne_nil i.natAbs) with ⟨c, t, hct⟩
    have hdc : isDig c = true :=
      natChars_digits i.natAbs c (by rw [hct]; exact List.mem_cons_self _ _)
    exact ⟨c, t, by simp [intChars, hneg, hct], isDig_notWs hdc,
      isDig_ne hdc 'n' (by decide), isDig_ne hdc 't' (by decide),
      isDig_ne hdc 'f' (by decide), isDig_ne hdc '"' (by decide),
      isDig_ne hdc '[' (by decide), isDig_ne hdc '{' (by decide)⟩

/-- One step of the reader at an opening bracket. -/
theorem parseVal_arrDispatch (f : Nat) (r : List Char) :
    parseVal (f + 1) ('[' :: r) = parseArrStart f (skipWs r) := by
  rw [parseVal.eq_def]
  simp [skipWs, jsonWsB]

/-- One step of the reader at an opening brace. -/
theorem parseVal_objDispatch (f : Nat) (r : List Char) :
    parseVal (f + 1) ('\x7b' :: r) = parseObjStart f (skipWs r) := by
  rw [parseVal.eq_def]
  simp [skipWs, jsonWsB]

/-- One step of the array opener on a non-empty array. -/
theorem parseArrStart_cons (f : Nat) (c : Char) (r : List Char)
    (h : c ≠ ']') : parseArrStart (f + 1) (c :: r) =
      match parseVal f (c :: r) with
      | some (v, r2) => parseArrRest f [v] r2
      | none => none := by
  rw [parseArrStart.eq_def]
  simp [if_neg h]

/-- One step of the object opener on a non-empty object. -/
theorem parseObjStart_cons (f : Nat) (c : Char) (r : List Char)
    (h : c ≠ '\x7d') : parseObjStart (f + 1) (c :: r) = parseMemb f [] (c :: r) := by
  rw [parseObjStart.eq_def]
  simp [if_neg h]

/-- Reading back the serializer's output returns exactly the serialized
well-formed value together with the untouched continuation, whenever the
fuel covers the value's cost and the continuation does not begin with a
digit. -/
theorem RTV : ∀ (n : Nat) (v : Json), cost v ≤ n →
    ∀ (fuel : Nat) (rest : List Char), wfJ v = true → numStop rest = true →
    cost v ≤ fuel → parseVal fuel (marshalV v ++ rest) = some (v, rest) := by
  intro n
  induction n using Nat.strong_induction_on with
  | _ n ih =>
    intro v hvn fuel rest hwf hstop hfuel
    obtain ⟨f, rfl⟩ : ∃ f, fuel = f + 1 :=
      ⟨fuel - 1, by have := cost_pos v; omega⟩
    cases v with
    | null =>
      rw [parseVal.eq_def]
      simp [skipWs, jsonWsB, marshalV, dropLit, List.isPrefixOf]
    | bool b =>
      cases b <;>
        (rw [parseVal.eq_def]
         simp [skipWs, jsonWsB, marshalV, dropLit, List.isPrefixOf])
    | num i =>
      rcases numHead_facts i with ⟨c, t, hct, hws, h1, h2, h3, h4, h5, h6⟩
      have hnum := parseNum_intChars i rest hstop
      have hm : marshalV (.num i) = c :: t := by simp [marshalV, hct]
      have hca : c :: (t ++ rest) = intChars i ++ rest := by
        rw [hct]; rfl
      rw [parseVal.eq_def, hm, List.cons_append]
      simp only [skipWs_not _ hws]
      simp only [if_neg h1, if_neg h2, if_neg h3, if_neg h4, if_neg h5,
        if_neg h6]
      rw [hca, hnum]
    | str s =>
      have hstr := parseStrBody_escStr s rest
      rw [parseVal.eq_def]
      simp only [marshalV, List.cons_append, List.append_assoc,
        List.singleton_append]
      rw [skipWs_not _ (by decide)]
      simp [hstr]
    | arr vs =>
      cases vs with
      | nil =>
        simp only [cost] at hfuel
        obtain ⟨g, rfl⟩ : ∃ g, f = g + 1 := ⟨f - 1, by simp [costL] at hfuel; omega⟩
        rw [parseVal.eq_def]
        simp only [marshalV, List.cons_append, List.nil_append]
        rw [skipWs_not _ (by decide)]
        simp only [reduceIte]
        rw [skipWs_not _ (by decide), parseArrStart.eq_def]
        simp
      | cons v vs =>
        simp only [cost, costL] at hfuel
        obtain ⟨g, rfl⟩ : ∃ g, f = g + 1 := ⟨f - 1, by omega⟩
        have hwfv : wfJ v = true := by
          simp only [wfJ, wfL, Bool.and_eq_true] at hwf
          exact hwf.1
        have hwfvs : ∀ e ∈ vs, wfJ e = true := by
          simp only [wfJ, wfL, Bool.and_eq_true] at hwf
          exact fun e he => wfL_mem vs e hwf.2 he
        have hcv : cost v < n := by
          simp only [cost, costL] at hvn; omega
        have hcont : numStop (marshalArrTail vs ++ ']' :: rest) = true :=
          numStop_arrTail vs rest
        have hv := ih (cost v) (by omega) v le_rfl g
          (marshalArrTail vs ++ ']' :: rest) hwfv hcont (by omega)
        have htail := RTArrTail vs [v] g rest
          (fun e he f2 r2 hs hc => by
            have hce : cost e ≤ costL vs := costL_mem vs e he
            exact ih (cost e) (by simp only [cost, costL] at hvn; omega) e
              le_rfl f2 r2 (hwfvs e he) hs hc)
          (by omega)
        rcases marshal_head v with ⟨c, t, hct, hws, hrb⟩
        have hshape : marshalV (.arr (v :: vs)) ++ rest =
            '[' :: (marshalV v ++ (marshalArrTail vs ++ ']' :: rest)) := by
          simp [marshalV, List.append_assoc]
        rw [hshape, parseVal_arrDispatch, hct, List.cons_append,
          skipWs_not _ hws, parseArrStart_cons _ _ _ hrb]
        rw [← List.cons_append, ← hct, hv]
        simpa using htail
    | obj kvs =>
      cases kvs with
      | nil =>
        simp only [cost, costO] at hfuel
        obtain ⟨g, rfl⟩ : ∃ g, f = g + 1 := ⟨f - 1, by omega⟩
        rw [parseVal.eq_def]
        simp only [marshalV, List.cons_append, List.nil_append]
        rw [skipWs_not _ (by decide)]
        simp only [reduceIte]
        rw [skipWs_not _ (by decide), parseObjStart.eq_def]
        simp
      | cons kv kvs =>
        obtain ⟨k, v⟩ := kv
        simp only [cost, costO] at hfuel hvn
        obtain ⟨g, rfl⟩ : ∃ g, f = g + 1 := ⟨f - 1, by omega⟩
        have hwfparts : sortedKeys ((k, v) :: kvs) = true ∧
            wfO ((k, v) :: kvs) = true := by
          simp only [wfJ, Bool.and_eq_true] at hwf
          exact hwf
        have hpair : List.Pairwise kvRel ((k, v) :: kvs) :=
          sortedKeys_pairwise _ hwfparts.1
        have hmemb := RTMembTail kvs k v [] g rest
          (fun p hp f2 r2 hs hc => by
            have hpm : (p.1, p.2) ∈ (k, v) :: kvs := by simpa using hp
            have hce : cost p.2 ≤ costO ((k, v) :: kvs) :=
              costO_mem _ p.1 p.2 hpm
            simp only [costO] at hce
            exact ih (cost p.2) (by omega) p.2 le_rfl f2 r2
              (wfO_mem _ p.1 p.2 hwfparts.2 hpm) hs hc)
          hpair
          (by simp only [costO]; omega)
        have hshape : marshalV (.obj ((k, v) :: kvs)) ++ rest =
            '\x7b' :: ('"' :: (escStr k ++ '"' :: ':' ::
              (marshalV v ++ (marshalObjTail kvs ++ '\x7d' :: rest)))) := by
          simp [marshalV, marshalMemb, List.append_assoc]
        rw [hshape, parseVal_objDispatch, skipWs_not _ (by decide),
          parseObjStart_cons _ _ _ (by decide)]
        simp only [marshalMemb, List.cons_append, List.append_assoc,
          List.nil_append] at hmemb
        exact hmemb

mutual

/-- The reading cost of a value is covered by twice its serialized length. -/
theorem cost_le_len : ∀ v : Json, cost v ≤ 2 * (marshalV v).length
  | .null => by simp [cost, marshalV]
  | .bool true => by simp [cost, marshalV]
  | .bool false => by simp [cost, marshalV]
  | .num i => by
    rcases List.exists_cons_of_ne_nil (natChars_ne_nil i.natAbs) with ⟨c, t, hct⟩
    by_cases hneg : i < 0 <;>
      simp [cost, marshalV, intChars, hneg, hct] <;> omega
  | .str s => by simp [cost, marshalV]; omega
  | .arr [] => by simp [cost, costL, marshalV]
  | .arr (v :: vs) => by
    have h1 := cost_le_len v
    have h2 := costL_le_lenTail vs
    simp [cost, costL, marshalV]
    omega
  | .obj [] => by simp [cost, costO, marshalV]
  | .obj ((k, v) :: kvs) => by
    have h1 := cost_le_len v
    have h2 := costO_le_lenTail kvs
    simp [cost, costO, marshalV, marshalMemb]
    omega

/-- The array-loop cost is covered by twice the serialized tail length. -/
theorem costL_le_lenTail : ∀ vs : List Json,
    costL vs ≤ 2 * (marshalArrTail vs).length
  | [] => by simp [costL, marshalArrTail]
  | v :: vs => by
    have h1 := cost_le_len v
    have h2 := costL_le_lenTail vs
    simp [costL, marshalArrTail]
    omega

/-- The object-loop cost is covered by twice the serialized tail length. -/
theorem costO_le_lenTail : ∀ kvs : List (List Char × Json),
    costO kvs ≤ 2 * (marshalObjTail kvs).length
  | [] => by simp [costO, marshalObjTail]
  | (k, v) :: kvs => by
    have h1 := cost_le_len v
    have h2 := costO_le_lenTail kvs
    simp [costO, marshalObjTail, marshalMemb]
    omega

end

/-- Unmarshalling the serialization of a well-formed object recovers exactly
that object. -/
theorem parseTop_marshal (m : List (List Char × Json))
    (hwf : wfJ (.obj m) = true) :
    parseTop (marshalV (.obj m)) = some m := by
  have hcost : cost (.obj m) ≤ 2 * (marshalV (.obj m)).length + 2 := by
    have := cost_le_len (.obj m)
    omega
  have h := RTV (cost (.obj m)) (.obj m) le_rfl
    (2 * (marshalV (.obj m)).length + 2) [] hwf rfl hcost
  rw [parseTop]
  simp only [List.append_nil] at h
  rw [h]
  rfl

/-- Array well-formedness splits over append. -/
theorem wfL_append : ∀ a b : List Json, wfL (a ++ b) = (wfL a && wfL b)
  | [], b => by simp [wfL]
  | x :: xs, b => by
    simp [wfL, wfL_append xs b, Bool.and_assoc]

/-- Every value the reader produces is well-formed: objects are built by
ordered insertion, so their keys are sorted and their values well-formed. -/
theorem parse_wf_all : ∀ fuel : Nat,
    (∀ s v r, parseVal fuel s = some (v, r) → wfJ v = true) ∧
    (∀ s v r, parseArrStart fuel s = some (v, r) → wfJ v = true) ∧
    (∀ acc s v r, wfL acc = true → parseArrRest fuel acc s = some (v, r) →
      wfJ v = true) ∧
    (∀ s v r, parseObjStart fuel s = some (v, r) → wfJ v = true) ∧
    (∀ acc s v r, sortedKeys acc = true → wfO acc = true →
      parseMemb fuel acc s = some (v, r) → wfJ v = true) ∧
    (∀ acc s v r, sortedKeys acc = true → wfO acc = true →
      parseObjRest fuel acc s = some (v, r) → wfJ v = true) := by
  intro fuel
  induction fuel with
  | zero =>
    refine ⟨?_, ?_, ?_, ?_, ?_, ?_⟩
    · intro s v r h
      simp [parseVal] at h
    · intro s v r h
      simp [parseArrStart] at h
    · intro acc s v r hacc h
      simp [parseArrRest] at h
    · intro s v r h
      simp [parseObjStart] at h
    · intro acc s v r hsort hvals h
      simp [parseMemb] at h
    · intro acc s v r hsort hvals h
      simp [parseObjRest] at h
  | succ f ih =>
    obtain ⟨ihV, ihAS, ihAR, ihOS, ihM, ihOR⟩ := ih
    refine ⟨?_, ?_, ?_, ?_, ?_, ?_⟩
    · intro s v r h
      simp only [parseVal] at h
      repeat' split at h
      all_goals first
        | exact ihAS _ _ _ h
        | exact ihOS _ _ _ h
        | (cases h; try rfl)
    · intro s v r h
      simp only [parseArrStart] at h
      split at h
      · cases h
      · split at h
        · simp only [Option.some.injEq, Prod.mk.injEq] at h
          obtain ⟨hv, _⟩ := h
          subst hv
          rfl
        · split at h
          · next v2 r2 heq =>
            exact ihAR [v2] _ _ _ (by simp [wfL, ihV _ _ _ heq]) h
          · cases h
    · intro acc s v r hacc h
      simp only [parseArrRest] at h
      split at h
      · cases h
      · split at h
        · split at h
          · next v2 r2 heq =>
            exact ihAR (acc ++ [v2]) _ _ _
              (by simp [wfL_append, wfL, hacc, ihV _ _ _ heq]) h
          · cases h
        · split at h
          · simp only [Option.some.injEq, Prod.mk.injEq] at h
            obtain ⟨hv, _⟩ := h
            subst hv
            simpa [wfJ] using hacc
          · cases h
    · intro s v r h
      simp only [parseObjStart] at h
      split at h
      · cases h
      · split at h
        · simp only [Option.some.injEq, Prod.mk.injEq] at h
          obtain ⟨hv, _⟩ := h
          subst hv
          rfl
        · exact ihM [] _ _ _ rfl rfl h
    · intro acc s v r hsort hvals h
      simp only [parseMemb] at h
      split at h
      · cases h
      · split at h
        · split at h
          · split at h
            · cases h
            · split at h
              · split at h
                · next v2 r4 heq =>
                  exact ihOR _ _ _ _
                    (insertKV_sorted _ _ _ hsort)
                    (insertKV_wfO _ _ _ hvals (ihV _ _ _ heq)) h
                · cases h
              · cases h
          · cases h
        · cases h
    · intro acc s v r hsort hvals h
      simp only [parseObjRest] at h
      split at h
      · cases h
      · split at h
        · exact ihM acc _ _ _ hsort hvals h
        · split at h
          · simp only [Option.some.injEq, Prod.mk.injEq] at h
            obtain ⟨hv, _⟩ := h
            subst hv
            simp [wfJ, hsort, hvals]
          · cases h

/-- What `json.Unmarshal` delivers to the handler is well-formed. -/
theorem parseTop_wf (s : List Char) (m : List (List Char × Json))
    (h : parseTop s = some m) : wfJ (.obj m) = true := by
  rw [parseTop] at h
  split at h
  · next kvs rest heq =>
    split at h
    · simp only [Option.some.injEq] at h
      subst h
      exact (parse_wf_all _).1 _ _ _ heq
    · cases h
  · cases h
  · cases h

/-! ## Lemmas: the rewrite of the sanitizer -/

/-- Looking up a key other than the destination and `max_tokens` passes
through a rename. -/
theorem renameTo_lookup_ne (dst : List Char) (mt : Json)
    (b : List (List Char × Json)) (k : List Char) (h1 : k ≠ dst)
    (h2 : k ≠ maxTokKey) : lookupKV (renameTo dst mt b) k = lookupKV b k := by
  rw [renameTo]
  split
  · exact lookup_eraseKV_ne _ _ _ h2
  · rw [lookup_eraseKV_ne _ _ _ h2, lookup_insertKV_ne _ _ _ _ h1]

/-- After a rename, the source field is gone. -/
theorem renameTo_lookup_maxTok (dst : List Char) (mt : Json)
    (b : List (List Char × Json)) :
    lookupKV (renameTo dst mt b) maxTokKey = none := lookup_eraseKV_self _ _

/-- A pre-existing destination value survives a rename untouched. -/
theorem renameTo_lookup_dst_some (dst : List Char) (mt w : Json)
    (b : List (List Char × Json)) (hne : dst ≠ maxTokKey)
    (hw : lookupKV b dst = some w) :
    lookupKV (renameTo dst mt b) dst = some w := by
  rw [renameTo, if_pos (by simp [hw]), lookup_eraseKV_ne _ _ _ hne, hw]

/-- An absent destination receives the source value. -/
theorem renameTo_lookup_dst_none (dst : List Char) (mt : Json)
    (b : List (List Char × Json)) (hne : dst ≠ maxTokKey)
    (hw : lookupKV b dst = none) :
    lookupKV (renameTo dst mt b) dst = some mt := by
  rw [renameTo, if_neg (by simp [hw]), lookup_eraseKV_ne _ _ _ hne,
    lookup_insertKV_self]

/-- The two unconditional deletions of the rewrite. -/
theorem eraseTT_temp (m : List (List Char × Json)) :
    lookupKV (eraseKV (eraseKV m tempKey) topPKey) tempKey = none := by
  rw [lookup_eraseKV_ne _ _ _ (by decide), lookup_eraseKV_self]

/-- The nucleus-sampling field is deleted. -/
theorem eraseTT_topP (m : List (List Char × Json)) :
    lookupKV (eraseKV (eraseKV m tempKey) topPKey) topPKey = none :=
  lookup_eraseKV_self _ _

/-- Other fields pass through the two deletions. -/
theorem eraseTT_ne (m : List (List Char × Json)) (k : List Char)
    (h1 : k ≠ tempKey) (h2 : k ≠ topPKey) :
    lookupKV (eraseKV (eraseKV m tempKey) topPKey) k = lookupKV m k := by
  rw [lookup_eraseKV_ne _ _ _ h2, lookup_eraseKV_ne _ _ _ h1]

/-- The rewrite is the two deletions alone, or the deletions followed by a
rename of a present non-null `max_tokens` to one of the two destination
fields. -/
theorem sanitizeMap_shape (path : List Char) (m : List (List Char × Json)) :
    sanitizeMap path m = eraseKV (eraseKV m tempKey) topPKey ∨
    ∃ mt dst, (dst = maxOutKey ∨ dst = maxCompKey) ∧ mt.isNull = false ∧
      lookupKV (eraseKV (eraseKV m tempKey) topPKey) maxTokKey = some mt ∧
      sanitizeMap path m =
        renameTo dst mt (eraseKV (eraseKV m tempKey) topPKey) := by
  simp only [sanitizeMap]
  split
  · exact Or.inl rfl
  · next mt heq =>
    split_ifs with h1 h2 h3 h4
    · exact Or.inl rfl
    · exact Or.inr ⟨mt, maxOutKey, Or.inl rfl, by simpa using h1, heq, rfl⟩
    · exact Or.inr ⟨mt, maxCompKey, Or.inr rfl, by simpa using h1, heq, rfl⟩
    · exact Or.inr ⟨mt, maxCompKey, Or.inr rfl, by simpa using h1, heq, rfl⟩
    · exact Or.inl rfl

/-- The rewrite of the second revision has the same two shapes, with
`max_completion_tokens` the only destination. -/
theorem sanitizeMapV2_shape (m : List (List Char × Json)) :
    sanitizeMapV2 m = eraseKV (eraseKV m tempKey) topPKey ∨
    ∃ mt, mt.isNull = false ∧
      lookupKV (eraseKV (eraseKV m tempKey) topPKey) maxTokKey = some mt ∧
      sanitizeMapV2 m =
        renameTo maxCompKey mt (eraseKV (eraseKV m tempKey) topPKey) := by
  simp only [sanitizeMapV2]
  split
  · exact Or.inl rfl
  · next mt heq =>
    split_ifs with h1
    · exact Or.inl rfl
    · exact Or.inr ⟨mt, by simpa using h1, heq, rfl⟩

/-- The outbound mapping of the sanitizer never contains `temperature`. -/
theorem sanitizeMap_temp (path : List Char) (m : List (List Char × Json)) :
    lookupKV (sanitizeMap path m) tempKey = none := by
  rcases sanitizeMap_shape path m with h | ⟨mt, dst, hdst, _, _, h⟩
  · rw [h]; exact eraseTT_temp m
  · rw [h, renameTo_lookup_ne _ _ _ _ ?_ (by decide)]
    · exact eraseTT_temp m
    · rcases hdst with rfl | rfl <;> decide

/-- The outbound mapping of the sanitizer never contains `top_p`. -/
theorem sanitizeMap_topP (path : List Char) (m : List (List Char × Json)) :
    lookupKV (sanitizeMap path m) topPKey = none := by
  rcases sanitizeMap_shape path m with h | ⟨mt, dst, hdst, _, _, h⟩
  · rw [h]; exact eraseTT_topP m
  · rw [h, renameTo_lookup_ne _ _ _ _ ?_ (by decide)]
    · exact eraseTT_topP m
    · rcases hdst with rfl | rfl <;> decide

/-- The second revision's outbound mapping never contains `temperature`. -/
theorem sanitizeMapV2_temp (m : List (List Char × Json)) :
    lookupKV (sanitizeMapV2 m) tempKey = none := by
  rcases sanitizeMapV2_shape m with h | ⟨mt, _, _, h⟩
  · rw [h]; exact eraseTT_temp m
  · rw [h, renameTo_lookup_ne _ _ _ _ (by decide) (by decide)]
    exact eraseTT_temp m

/-- The second revision's outbound mapping never contains `top_p`. -/
theorem sanitizeMapV2_topP (m : List (List Char × Json)) :
    lookupKV (sanitizeMapV2 m) topPKey = none := by
  rcases sanitizeMapV2_shape m with h | ⟨mt, _, _, h⟩
  · rw [h]; exact eraseTT_topP m
  · rw [h, renameTo_lookup_ne _ _ _ _ (by decide) (by decide)]
    exact eraseTT_topP m

/-- The sanitizer does not touch the `model` field. -/
theorem sanitizeMap_model (path : List Char) (m : List (List Char × Json)) :
    lookupKV (sanitizeMap path m) modelKey = lookupKV m modelKey := by
  rcases sanitizeMap_shape path m with h | ⟨mt, dst, hdst, _, _, h⟩
  · rw [h]; exact eraseTT_ne m _ (by decide) (by decide)
  · rw [h, renameTo_lookup_ne _ _ _ _ ?_ (by decide)]
    · exact eraseTT_ne m _ (by decide) (by decide)
    · rcases hdst with rfl | rfl <;> decide

/-- A value found in a well-formed member list is well-formed. -/
theorem lookup_wfO : ∀ (m : List (List Char × Json)) (k : List Char)
    (v : Json), wfO m = true → lookupKV m k = some v → wfJ v = true
  | [], _, _ => by intro _ h; cases h
  | (k2, v2) :: rest, k, v => by
    intro hwf h
    simp only [wfO, Bool.and_eq_true] at hwf
    simp only [lookupKV] at h
    split at h
    · simp only [Option.some.injEq] at h
      subst h
      exact hwf.1
    · exact lookup_wfO rest k v hwf.2 h

/-- The sanitizer keeps the body well-formed. -/
theorem sanitizeMap_wf (path : List Char) (m : List (List Char × Json))
    (hwf : wfJ (.obj m) = true) : wfJ (.obj (sanitizeMap path m)) = true := by
  simp only [wfJ, Bool.and_eq_true] at hwf ⊢
  obtain ⟨hsort, hvals⟩ := hwf
  have hsortTT : sortedKeys (eraseKV (eraseKV m tempKey) topPKey) = true :=
    eraseKV_sorted _ _ (eraseKV_sorted _ _ hsort)
  have hvalsTT : wfO (eraseKV (eraseKV m tempKey) topPKey) = true :=
    eraseKV_wfO _ _ (eraseKV_wfO _ _ hvals)
  rcases sanitizeMap_shape path m with h | ⟨mt, dst, hdst, _, hmt, h⟩
  · rw [h]; exact ⟨hsortTT, hvalsTT⟩
  · have hwmt : wfJ mt = true := lookup_wfO _ _ _ hvalsTT hmt
    rw [h, renameTo]
    split
    · exact ⟨eraseKV_sorted _ _ hsortTT, eraseKV_wfO _ _ hvalsTT⟩
    · exact ⟨eraseKV_sorted _ _ (insertKV_sorted _ _ _ hsortTT),
        eraseKV_wfO _ _ (insertKV_wfO _ _ _ hvalsTT hwmt)⟩

/-- The second revision's sanitizer keeps the body well-formed. -/
theorem sanitizeMapV2_wf (m : List (List Char × Json))
    (hwf : wfJ (.obj m) = true) : wfJ (.obj (sanitizeMapV2 m)) = true := by
  simp only [wfJ, Bool.and_eq_true] at hwf ⊢
  obtain ⟨hsort, hvals⟩ := hwf
  have hsortTT : sortedKeys (eraseKV (eraseKV m tempKey) topPKey) = true :=
    eraseKV_sorted _ _ (eraseKV_sorted _ _ hsort)
  have hvalsTT : wfO (eraseKV (eraseKV m tempKey) topPKey) = true :=
    eraseKV_wfO _ _ (eraseKV_wfO _ _ hvals)
  rcases sanitizeMapV2_shape m with h | ⟨mt, _, hmt, h⟩
  · rw [h]; exact ⟨hsortTT, hvalsTT⟩
  · have hwmt : wfJ mt = true := lookup_wfO _ _ _ hvalsTT hmt
    rw [h, renameTo]
    split
    · exact ⟨eraseKV_sorted _ _ hsortTT, eraseKV_wfO _ _ hvalsTT⟩
    · exact ⟨eraseKV_sorted _ _ (insertKV_sorted _ _ _ hsortTT),
        eraseKV_wfO _ _ (insertKV_wfO _ _ _ hvalsTT hwmt)⟩

/-- Erasing the two sampling fields from a mapping that lacks them changes
nothing. -/
theorem eraseTT_absent (m : List (List Char × Json))
    (h1 : lookupKV m tempKey = none) (h2 : lookupKV m topPKey = none) :
    eraseKV (eraseKV m tempKey) topPKey = m := by
  rw [eraseKV_absent m tempKey h1, eraseKV_absent m topPKey h2]

/-- When the outbound mapping still carries a non-null `max_tokens`, the
path matched none of the rename cases and the rewrite was the two deletions
alone. -/
theorem sanitizeMap_maxTok_cases (path : List Char)
    (m : List (List Char × Json)) (mt : Json)
    (hmt : lookupKV (sanitizeMap path m) maxTokKey = some mt)
    (hnull : mt.isNull = false) :
    respPre path = false ∧
    (threadsPre path || (assistPre path && hasSubstr path runsLit)) = false ∧
    (chatPre path || compPre path) = false ∧
    sanitizeMap path m = eraseKV (eraseKV m tempKey) topPKey := by
  simp only [sanitizeMap] at hmt
  split at hmt
  · next heq0 =>
    rw [heq0] at hmt
    cases hmt
  · next mt' heq0 =>
    split_ifs at hmt with hn h1 h2 h3
    · rw [heq0] at hmt
      injection hmt with hmt2
      subst hmt2
      rw [hn] at hnull
      cases hnull
    · rw [renameTo_lookup_maxTok] at hmt
      cases hmt
    · rw [renameTo_lookup_maxTok] at hmt
      cases hmt
    · rw [renameTo_lookup_maxTok] at hmt
      cases hmt
    · refine ⟨by simpa using h1, by simpa using h2, by simpa using h3, ?_⟩
      simp only [sanitizeMap]
      rw [heq0]
      simp only [if_neg hn, if_neg h1, if_neg h2, if_neg h3]

/-- Applying the sanitizer's rewrite twice is the same as applying it
once. -/
theorem sanitizeMap_idem (path : List Char) (m : List (List Char × Json)) :
    sanitizeMap path (sanitizeMap path m) = sanitizeMap path m := by
  have htemp := sanitizeMap_temp path m
  have htopp := sanitizeMap_topP path m
  conv =>
    lhs
    rw [sanitizeMap]
  rw [eraseTT_absent _ htemp htopp]
  cases hmt : lookupKV (sanitizeMap path m) maxTokKey with
  | none => simp [hmt]
  | some mt =>
    by_cases hnull : mt.isNull
    · simp [hmt, hnull]
    · have hfacts := sanitizeMap_maxTok_cases path m mt hmt
        (by simpa using hnull)
      simp [hmt, hnull, hfacts.1, hfacts.2.1, hfacts.2.2.1]

/-! ## Lemmas: route families -/

/-- Two prefixes of one path are comparable. -/
theorem prefixDisjoint : ∀ (p a b : List Char),
    a.isPrefixOf p = true → b.isPrefixOf p = true →
    a.isPrefixOf b = true ∨ b.isPrefixOf a = true
  | _, [], b => fun _ _ => Or.inl (by simp [List.isPrefixOf])
  | _, _ :: _, [] => fun _ _ => Or.inr (by simp [List.isPrefixOf])
  | [], a :: as, b :: bs => fun h _ => by simp [List.isPrefixOf] at h
  | z :: zs, a :: as, b :: bs => fun h1 h2 => by
    simp only [List.isPrefixOf, Bool.and_eq_true, beq_iff_eq] at h1 h2 ⊢
    obtain ⟨rfl, h1t⟩ := h1
    obtain ⟨hb, h2t⟩ := h2
    subst hb
    rcases prefixDisjoint zs as bs h1t h2t with h | h
    · exact Or.inl ⟨rfl, h⟩
    · exact Or.inr ⟨rfl, h⟩

/-- A path with one prefix lacks any incomparable prefix. -/
theorem notPrefixBoth (a b p : List Char) (hab : a.isPrefixOf b = false)
    (hba : b.isPrefixOf a = false) (ha : a.isPrefixOf p = true) :
    b.isPrefixOf p = false := by
  cases hb : b.isPrefixOf p
  · rfl
  · rcases prefixDisjoint p a b ha hb with h | h
    · rw [hab] at h; cases h
    · rw [hba] at h; cases h

/-- A run-style path is not responses-style. -/
theorem respPre_false_of_runStyle (path : List Char)
    (h : runStyle path = true) : respPre path = false := by
  simp only [runStyle, Bool.or_eq_true, Bool.and_eq_true] at h
  rcases h with ⟨h1, _⟩ | ⟨h1, _⟩
  · exact notPrefixBoth _ _ path (by decide) (by decide) h1
  · exact notPrefixBoth _ _ path (by decide) (by decide) h1

/-- A chat-style path is not responses-style. -/
theorem respPre_false_of_chatStyle (path : List Char)
    (h : chatStyle path = true) : respPre path = false := by
  simp only [chatStyle, Bool.or_eq_true] at h
  rcases h with h1 | h1
  · exact notPrefixBoth _ _ path (by decide) (by decide) h1
  · exact notPrefixBoth _ _ path (by decide) (by decide) h1

/-- A chat-style path is not a threads path. -/
theorem threadsPre_false_of_chatStyle (path : List Char)
    (h : chatStyle path = true) : threadsPre path = false := by
  simp only [chatStyle, Bool.or_eq_true] at h
  rcases h with h1 | h1
  · exact notPrefixBoth _ _ path (by decide) (by decide) h1
  · exact notPrefixBoth _ _ path (by decide) (by decide) h1

/-- A chat-style path is not an assistants path. -/
theorem assistPre_false_of_chatStyle (path : List Char)
    (h : chatStyle path = true) : assistPre path = false := by
  simp only [chatStyle, Bool.or_eq_true] at h
  rcases h with h1 | h1
  · exact notPrefixBoth _ _ path (by decide) (by decide) h1
  · exact notPrefixBoth _ _ path (by decide) (by decide) h1

/-- Every run-style path passes the route gate. -/
theorem routeMatched_of_runStyle (path : List Char)
    (h : runStyle path = true) : routeMatched path = true := by
  simp only [runStyle, Bool.or_eq_true] at h
  simp only [routeMatched, Bool.or_eq_true]
  rcases h with h | h
  · exact Or.inl (Or.inr h)
  · exact Or.inr h

/-- Every responses-style path passes the route gate. -/
theorem routeMatched_of_respStyle (path : List Char)
    (h : respStyle path = true) : routeMatched path = true := by
  simp only [respStyle] at h
  simp only [routeMatched, Bool.or_eq_true]
  exact Or.inl (Or.inl (Or.inr h))

/-- Every chat-style path passes the route gate. -/
theorem routeMatched_of_chatStyle (path : List Char)
    (h : chatStyle path = true) : routeMatched path = true := by
  simp only [chatStyle, Bool.or_eq_true] at h
  simp only [routeMatched, Bool.or_eq_true]
  rcases h with h | h
  · exact Or.inl (Or.inl (Or.inl (Or.inl h)))
  · exact Or.inl (Or.inl (Or.inl (Or.inr h)))

/-- On a responses-style path the rewrite of a present non-null
`max_tokens` renames it to `max_output_tokens`. -/
theorem sanitizeMap_resp (path : List Char) (m : List (List Char × Json))
    (mt : Json) (hresp : respStyle path = true)
    (hmt : lookupKV m maxTokKey = some mt) (hnull : mt.isNull = false) :
    sanitizeMap path m =
      renameTo maxOutKey mt (eraseKV (eraseKV m tempKey) topPKey) := by
  have hb1 : lookupKV (eraseKV (eraseKV m tempKey) topPKey) maxTokKey =
      some mt := by
    rw [eraseTT_ne m _ (by decide) (by decide)]
    exact hmt
  simp only [respStyle] at hresp
  simp only [sanitizeMap]
  rw [hb1]
  simp only [if_neg (by simp [hnull] : ¬ mt.isNull = true), if_pos hresp]

/-- On a run-style path the rewrite of a present non-null `max_tokens`
renames it to `max_completion_tokens`. -/
theorem sanitizeMap_run (path : List Char) (m : List (List Char × Json))
    (mt : Json) (hrun : runStyle path = true)
    (hmt : lookupKV m maxTokKey = some mt) (hnull : mt.isNull = false) :
    sanitizeMap path m =
      renameTo maxCompKey mt (eraseKV (eraseKV m tempKey) topPKey) := by
  have hb1 : lookupKV (eraseKV (eraseKV m tempKey) topPKey) maxTokKey =
      some mt := by
    rw [eraseTT_ne m _ (by decide) (by decide)]
    exact hmt
  have hcase : (threadsPre path || (assistPre path && hasSubstr path runsLit)) =
      true := by
    simp only [runStyle, Bool.or_eq_true, Bool.and_eq_true] at hrun
    simp only [Bool.or_eq_true, Bool.and_eq_true]
    rcases hrun with ⟨h1, _⟩ | h1
    · exact Or.inl h1
    · exact Or.inr h1
  simp only [sanitizeMap]
  rw [hb1]
  simp only [if_neg (by simp [hnull] : ¬ mt.isNull = true),
    if_neg (by simp [respPre_false_of_runStyle path hrun] :
      ¬ respPre path = true), if_pos hcase]

/-- On a chat-style path the rewrite of a present non-null `max_tokens`
renames it to `max_completion_tokens` as well. -/
theorem sanitizeMap_chat (path : List Char) (m : List (List Char × Json))
    (mt : Json) (hchat : chatStyle path = true)
    (hmt : lookupKV m maxTokKey = some mt) (hnull : mt.isNull = false) :
    sanitizeMap path m =
      renameTo maxCompKey mt (eraseKV (eraseKV m tempKey) topPKey) := by
  have hb1 : lookupKV (eraseKV (eraseKV m tempKey) topPKey) maxTokKey =
      some mt := by
    rw [eraseTT_ne m _ (by decide) (by decide)]
    exact hmt
  have hrunfalse : (threadsPre path ||
      (assistPre path && hasSubstr path runsLit)) = false := by
    rw [threadsPre_false_of_chatStyle path hchat,
      assistPre_false_of_chatStyle path hchat]
    rfl
  have hcond : (chatPre path || compPre path) = true := by
    simpa [chatStyle] using hchat
  simp only [sanitizeMap]
  rw [hb1]
  simp only [if_neg (by simp [hnull] : ¬ mt.isNull = true),
    if_neg (by simp [respPre_false_of_chatStyle path hchat] :
      ¬ respPre path = true),
    if_neg (by simp [hrunfalse] :
      ¬ (threadsPre path || (assistPre path && hasSubstr path runsLit)) = true),
    if_pos hcond]

/-! ## Lemmas: the handler -/

/-- The empty body is not a JSON object. -/
theorem parseTop_nil : parseTop [] = none := by
  simp [parseTop, parseVal, skipWs]

/-- A body that parses is non-empty. -/
theorem isEmpty_false_of_parseTop (b : List Char)
    (kvs : List (List Char × Json)) (h : parseTop b = some kvs) :
    b.isEmpty = false := by
  cases b with
  | nil => rw [parseTop_nil] at h; cases h
  | cons c r => rfl

/-- The `model` value the handler extracts is unchanged by the rewrite. -/
theorem modelOf_sanitizeMap (path : List Char)
    (kvs : List (List Char × Json)) :
    modelOf (sanitizeMap path kvs) = modelOf kvs := by
  simp [modelOf, sanitizeMap_model]

/-- On the constrained rewrite path, the handler installs the re-serialized
sanitized body for downstream dispatch and the deferred restore leaves the
original bytes behind afterwards. -/
theorem sanitizer_rewrite (method path extra inBody : List Char)
    (inLen : Int) (kvs : List (List Char × Json)) (hm : method = postLit)
    (hr : routeMatched path = true) (hp : parseTop inBody = some kvs)
    (hc : isConstrainedModel extra (modelOf kvs) = true) :
    constrainedModelSanitizer method path extra inBody inLen =
      ⟨marshalV (.obj (sanitizeMap path kvs)),
       ((marshalV (.obj (sanitizeMap path kvs))).length : Int),
       inBody, (inBody.length : Int)⟩ := by
  have hne : inBody.isEmpty = false := isEmpty_false_of_parseTop _ _ hp
  simp [constrainedModelSanitizer, hm, hr, hne, hp, hc]

/-- On a matched route, a body that parses to an unconstrained model is
left exhausted for downstream dispatch and restored only afterwards. -/
theorem sanitizer_unconstrained (method path extra inBody : List Char)
    (inLen : Int) (kvs : List (List Char × Json)) (hm : method = postLit)
    (hr : routeMatched path = true) (hp : parseTop inBody = some kvs)
    (hc : isConstrainedModel extra (modelOf kvs) = false) :
    constrainedModelSanitizer method path extra inBody inLen =
      ⟨[], inLen, inBody, (inBody.length : Int)⟩ := by
  have hne : inBody.isEmpty = false := isEmpty_false_of_parseTop _ _ hp
  simp [constrainedModelSanitizer, hm, hr, hne, hp, hc]

/-- The pure core applied twice is the pure core applied once. -/
theorem sanitizeBytes_idem_aux (method path extra b : List Char) :
    sanitizeBytes method path extra (sanitizeBytes method path extra b) =
      sanitizeBytes method path extra b := by
  by_cases hm : method = postLit
  · by_cases hr : routeMatched path = true
    · cases hp : parseTop b with
      | none => simp [sanitizeBytes, hm, hr, hp]
      | some kvs =>
        by_cases hc : isConstrainedModel extra (modelOf kvs) = true
        · have hwf : wfJ (.obj kvs) = true := parseTop_wf b kvs hp
          have hwf2 : wfJ (.obj (sanitizeMap path kvs)) = true :=
            sanitizeMap_wf path kvs hwf
          have hparse2 : parseTop (marshalV (.obj (sanitizeMap path kvs))) =
              some (sanitizeMap path kvs) := parseTop_marshal _ hwf2
          simp [sanitizeBytes, hm, hr, hp, hparse2, modelOf_sanitizeMap, hc,
            sanitizeMap_idem]
        · simp [sanitizeBytes, hm, hr, hp, hc]
    · simp [sanitizeBytes, hm, hr]
  · simp [sanitizeBytes, hm]

/-! ## The claims -/

/-- C1 (code bug): the claim says that for a request whose model is not
constrained the body handed downstream is byte-identical to the inbound
body on every matched route.  The code reads the body and defers
`restore(raw)`, which only runs after `c.Next()` has returned, so on the
unconstrained path downstream receives an exhausted (empty) stream.  This
theorem evaluates the handler at a failing input: a matched chat route, an
unconstrained model, a non-empty body, and an empty downstream body. -/
theorem claim1_nonInterference_failure :
    routeMatched "/v1/chat/completions".data = true ∧
    (parseTop "\x7b\"max_tokens\":100,\"model\":\"gpt-3.5\",\"temperature\":1\x7d".data).map
      (fun kvs => isConstrainedModel [] (modelOf kvs)) = some false ∧
    constrainedModelSanitizer postLit "/v1/chat/completions".data []
      "\x7b\"max_tokens\":100,\"model\":\"gpt-3.5\",\"temperature\":1\x7d".data 52 =
      ⟨[], 52,
       "\x7b\"max_tokens\":100,\"model\":\"gpt-3.5\",\"temperature\":1\x7d".data,
       52⟩ ∧
    "\x7b\"max_tokens\":100,\"model\":\"gpt-3.5\",\"temperature\":1\x7d".data ≠
      ([] : List Char) := by
  exact ⟨rfl, rfl, rfl, by decide⟩

/-- C4: applying the full core transformation — parse, classify, rewrite,
serialize, with pass-through on every bail-out — twice in succession yields
the same outbound bytes as applying it once, for every method, path,
extension list and original body. -/
theorem claim4_idempotence (method path extra b : List Char) :
    sanitizeBytes method path extra (sanitizeBytes method path extra b) =
      sanitizeBytes method path extra b :=
  sanitizeBytes_idem_aux method path extra b

/-- C8 (code bug): the claim says a malformed body on a matched route passes
through unchanged to downstream.  The code reads the body, fails to parse,
and calls `c.Next()` before the deferred restore has run, so downstream
receives an empty stream while the original bytes reappear only after the
handler returns.  This theorem evaluates the handler at a failing input. -/
theorem claim8_malformed_failure :
    parseTop "not json".data = none ∧
    constrainedModelSanitizer postLit "/v1/chat/completions".data []
      "not json".data 8 =
      ⟨[], 8, "not json".data, 8⟩ ∧
    "not json".data ≠ ([] : List Char) := by
  exact ⟨rfl, rfl, by decide⟩

/-- C10: on every exit path that reaches the restore registration, the
deferred restore runs last, so after the handler returns the request holds
the original raw bytes with `ContentLength` equal to their length; in
revision 1 the registration is reached on POST matched-route requests with
a non-empty body, in revision 2 on every POST chat-completions request. -/
theorem claim10_final_restore :
    (∀ (method path extra b : List Char) (l : Int), method = postLit →
      routeMatched path = true → b ≠ [] →
      (constrainedModelSanitizer method path extra b l).afterBody = b ∧
      (constrainedModelSanitizer method path extra b l).afterLen =
        (b.length : Int)) ∧
    (∀ (method path extra b : List Char) (l : Int), method = postLit →
      chatPre path = true →
      (constrainedModelSanitizerV2 method path extra b l).afterBody = b ∧
      (constrainedModelSanitizerV2 method path extra b l).afterLen =
        (b.length : Int)) := by
  constructor
  · intro method path extra b l hm hr hb
    have hne : b.isEmpty = false := by
      cases b
      · exact absurd rfl hb
      · rfl
    simp only [constrainedModelSanitizer, if_pos hm, if_pos hr]
    rw [if_neg (by simp [hne])]
    cases hp : parseTop b with
    | none => exact ⟨rfl, rfl⟩
    | some kvs =>
      by_cases hc : isConstrainedModel extra (modelOf kvs) = true
      · simp [hp, hc]
      · simp [hp, hc]
  · intro method path extra b l hm hchat
    simp only [constrainedModelSanitizerV2, if_pos (And.intro hm hchat)]
    by_cases hne : b.isEmpty
    · have : b = [] := by
        cases b
        · rfl
        · cases hne
      subst this
      simp
    · rw [if_neg hne]
      cases hp : parseTop b with
      | none => exact ⟨rfl, rfl⟩
      | some kvs =>
        by_cases hc : isConstrainedModelV2 extra (modelOf kvs) = true
        · simp [hp, hc]
        · simp [hp, hc]

/-- Witness for C10 at a concrete request: a constrained chat request whose
patched bytes are visible downstream while the after-state is the original
body and its length. -/
theorem claim10_witness :
    (constrainedModelSanitizer postLit "/v1/chat/completions".data []
      "\x7b\"model\":\"o3\"\x7d".data 14).afterBody =
      "\x7b\"model\":\"o3\"\x7d".data ∧
    (constrainedModelSanitizer postLit "/v1/chat/completions".data []
      "\x7b\"model\":\"o3\"\x7d".data 14).afterLen = 14 :=
  claim10_final_restore.1 postLit "/v1/chat/completions".data []
    "\x7b\"model\":\"o3\"\x7d".data 14 rfl (by decide) (by decide)

/-- C2: for every request with a constrained model on a matched generation
route, the outbound body — the bytes installed for downstream dispatch —
parses back to the sanitized mapping, which contains neither `temperature`
nor `top_p`, whatever values the inbound body held for them; the first
conjunct covers revision 1 on all its routes, the second revision 2 on its
chat route. -/
theorem claim2_field_removal :
    (∀ (method path extra inBody : List Char) (inLen : Int)
      (kvs : List (List Char × Json)), method = postLit →
      routeMatched path = true → parseTop inBody = some kvs →
      isConstrainedModel extra (modelOf kvs) = true →
      parseTop ((constrainedModelSanitizer method path extra inBody
          inLen).duringBody) = some (sanitizeMap path kvs) ∧
      lookupKV (sanitizeMap path kvs) tempKey = none ∧
      lookupKV (sanitizeMap path kvs) topPKey = none) ∧
    (∀ (method path extra inBody : List Char) (inLen : Int)
      (kvs : List (List Char × Json)), method = postLit →
      chatPre path = true → parseTop inBody = some kvs →
      isConstrainedModelV2 extra (modelOf kvs) = true →
      parseTop ((constrainedModelSanitizerV2 method path extra inBody
          inLen).duringBody) = some (sanitizeMapV2 kvs) ∧
      lookupKV (sanitizeMapV2 kvs) tempKey = none ∧
      lookupKV (sanitizeMapV2 kvs) topPKey = none) := by
  constructor
  · intro method path extra inBody inLen kvs hm hr hp hc
    rw [sanitizer_rewrite method path extra inBody inLen kvs hm hr hp hc]
    exact ⟨parseTop_marshal _ (sanitizeMap_wf path kvs (parseTop_wf _ _ hp)),
      sanitizeMap_temp path kvs, sanitizeMap_topP path kvs⟩
  · intro method path extra inBody inLen kvs hm hchat hp hc
    have hne : inBody.isEmpty = false := isEmpty_false_of_parseTop _ _ hp
    have hbody : (constrainedModelSanitizerV2 method path extra inBody
        inLen).duringBody = marshalV (.obj (sanitizeMapV2 kvs)) := by
      simp [constrainedModelSanitizerV2, hm, hchat, hne, hp, hc]
    rw [hbody]
    exact ⟨parseTop_marshal _ (sanitizeMapV2_wf kvs (parseTop_wf _ _ hp)),
      sanitizeMapV2_temp kvs, sanitizeMapV2_topP kvs⟩

/-- Witness for C2 at a concrete constrained chat request carrying both
sampling fields. -/
theorem claim2_witness :
    parseTop ((constrainedModelSanitizer postLit "/v1/chat/completions".data
      [] "\x7b\"model\":\"o3\",\"temperature\":1,\"top_p\":1\x7d".data
      40).duringBody) =
      some (sanitizeMap "/v1/chat/completions".data
        [("model".data, Json.str "o3".data),
         ("temperature".data, Json.num 1), ("top_p".data, Json.num 1)]) ∧
    lookupKV (sanitizeMap "/v1/chat/completions".data
      [("model".data, Json.str "o3".data), ("temperature".data, Json.num 1),
       ("top_p".data, Json.num 1)]) tempKey = none ∧
    lookupKV (sanitizeMap "/v1/chat/completions".data
      [("model".data, Json.str "o3".data), ("temperature".data, Json.num 1),
       ("top_p".data, Json.num 1)]) topPKey = none :=
  claim2_field_removal.1 postLit "/v1/chat/completions".data []
    "\x7b\"model\":\"o3\",\"temperature\":1,\"top_p\":1\x7d".data 40
    [("model".data, Json.str "o3".data), ("temperature".data, Json.num 1),
     ("top_p".data, Json.num 1)] rfl (by decide) rfl rfl

/-- C3: for every constrained-model request on a responses-style or
run-style route whose body has a non-null `max_tokens` and whose
destination token field already exists, the outbound body keeps the
pre-existing destination value and loses `max_tokens`, so both names are
never sent upstream. -/
theorem claim3_no_overwrite (method path extra inBody : List Char)
    (inLen : Int) (kvs : List (List Char × Json)) (mt w : Json)
    (dst : List Char) (hm : method = postLit)
    (hfam : (respStyle path = true ∧ dst = maxOutKey) ∨
      (runStyle path = true ∧ dst = maxCompKey))
    (hp : parseTop inBody = some kvs)
    (hc : isConstrainedModel extra (modelOf kvs) = true)
    (hmt : lookupKV kvs maxTokKey = some mt) (hnull : mt.isNull = false)
    (hw : lookupKV kvs dst = some w) :
    ∃ out, parseTop ((constrainedModelSanitizer method path extra inBody
        inLen).duringBody) = some out ∧
      lookupKV out dst = some w ∧ lookupKV out maxTokKey = none := by
  have hr : routeMatched path = true := by
    rcases hfam with ⟨h, _⟩ | ⟨h, _⟩
    · exact routeMatched_of_respStyle path h
    · exact routeMatched_of_runStyle path h
  rw [sanitizer_rewrite method path extra inBody inLen kvs hm hr hp hc]
  refine ⟨sanitizeMap path kvs,
    parseTop_marshal _ (sanitizeMap_wf path kvs (parseTop_wf _ _ hp)), ?_, ?_⟩
  · rcases hfam with ⟨hstyle, rfl⟩ | ⟨hstyle, rfl⟩
    · rw [sanitizeMap_resp path kvs mt hstyle hmt hnull]
      exact renameTo_lookup_dst_some _ _ _ _ (by decide)
        (by rw [eraseTT_ne kvs _ (by decide) (by decide)]; exact hw)
    · rw [sanitizeMap_run path kvs mt hstyle hmt hnull]
      exact renameTo_lookup_dst_some _ _ _ _ (by decide)
        (by rw [eraseTT_ne kvs _ (by decide) (by decide)]; exact hw)
  · rcases hfam with ⟨hstyle, rfl⟩ | ⟨hstyle, rfl⟩
    · rw [sanitizeMap_resp path kvs mt hstyle hmt hnull]
      exact renameTo_lookup_maxTok _ _ _
    · rw [sanitizeMap_run path kvs mt hstyle hmt hnull]
      exact renameTo_lookup_maxTok _ _ _

/-- Witness for C3 at a concrete responses-style request where the
destination field already holds 7 and `max_tokens` holds 99. -/
theorem claim3_witness :
    ∃ out, parseTop ((constrainedModelSanitizer postLit "/v1/responses".data
        []
        "\x7b\"max_output_tokens\":7,\"max_tokens\":99,\"model\":\"o3\"\x7d".data
        52).duringBody) = some out ∧
      lookupKV out maxOutKey = some (Json.num 7) ∧
      lookupKV out maxTokKey = none :=
  claim3_no_overwrite postLit "/v1/responses".data []
    "\x7b\"max_output_tokens\":7,\"max_tokens\":99,\"model\":\"o3\"\x7d".data
    52
    [("max_output_tokens".data, Json.num 7), ("max_tokens".data, Json.num 99),
     ("model".data, Json.str "o3".data)]
    (Json.num 99) (Json.num 7) maxOutKey rfl (Or.inl ⟨by decide, rfl⟩) rfl rfl
    rfl rfl rfl

/-- C5 counterexample: the claim says chat-style routes leave the
token-limit field name unchanged unless an explicit compatibility flag
instructs renaming; the code has no such flag and renames unconditionally.
At a concrete constrained chat request with `max_tokens`, the outbound
body already carries `max_completion_tokens` and no `max_tokens`. -/
theorem claim5_counterexample :
    (parseTop "\x7b\"max_tokens\":5,\"model\":\"o3\"\x7d".data).map
      (fun kvs => isConstrainedModel [] (modelOf kvs)) = some true ∧
    (constrainedModelSanitizer postLit "/v1/chat/completions".data []
      "\x7b\"max_tokens\":5,\"model\":\"o3\"\x7d".data 29).duringBody =
      "\x7b\"max_completion_tokens\":5,\"model\":\"o3\"\x7d".data := by
  exact ⟨rfl, rfl⟩

/-- C5 amended: on a chat-style route (chat completions or legacy
completions) the handler always renames a present non-null `max_tokens` to
`max_completion_tokens` for a constrained model — no compatibility flag
exists in the code — not overwriting a pre-existing destination value. -/
theorem claim5_amended (method path extra inBody : List Char) (inLen : Int)
    (kvs : List (List Char × Json)) (mt : Json) (hm : method = postLit)
    (hchat : chatStyle path = true) (hp : parseTop inBody = some kvs)
    (hc : isConstrainedModel extra (modelOf kvs) = true)
    (hmt : lookupKV kvs maxTokKey = some mt) (hnull : mt.isNull = false) :
    ∃ out, parseTop ((constrainedModelSanitizer method path extra inBody
        inLen).duringBody) = some out ∧
      lookupKV out maxTokKey = none ∧
      (lookupKV kvs maxCompKey = none → lookupKV out maxCompKey = some mt) ∧
      (∀ w, lookupKV kvs maxCompKey = some w →
        lookupKV out maxCompKey = some w) := by
  have hr : routeMatched path = true := routeMatched_of_chatStyle path hchat
  rw [sanitizer_rewrite method path extra inBody inLen kvs hm hr hp hc]
  refine ⟨sanitizeMap path kvs,
    parseTop_marshal _ (sanitizeMap_wf path kvs (parseTop_wf _ _ hp)),
    ?_, ?_, ?_⟩ <;> rw [sanitizeMap_chat path kvs mt hchat hmt hnull]
  · exact renameTo_lookup_maxTok _ _ _
  · intro habs
    exact renameTo_lookup_dst_none _ _ _ (by decide)
      (by rw [eraseTT_ne kvs _ (by decide) (by decide)]; exact habs)
  · intro w hw
    exact renameTo_lookup_dst_some _ _ _ _ (by decide)
      (by rw [eraseTT_ne kvs _ (by decide) (by decide)]; exact hw)

/-- Witness for the amended C5 at a concrete chat request. -/
theorem claim5_amended_witness :
    ∃ out, parseTop ((constrainedModelSanitizer postLit
        "/v1/chat/completions".data []
        "\x7b\"max_tokens\":5,\"model\":\"o3\"\x7d".data 29).duringBody) =
        some out ∧
      lookupKV out maxTokKey = none ∧
      (lookupKV [("max_tokens".data, Json.num 5),
        ("model".data, Json.str "o3".data)] maxCompKey = none →
        lookupKV out maxCompKey = some (Json.num 5)) ∧
      (∀ w, lookupKV [("max_tokens".data, Json.num 5),
        ("model".data, Json.str "o3".data)] maxCompKey = some w →
        lookupKV out maxCompKey = some w) :=
  claim5_amended postLit "/v1/chat/completions".data []
    "\x7b\"max_tokens\":5,\"model\":\"o3\"\x7d".data 29
    [("max_tokens".data, Json.num 5), ("model".data, Json.str "o3".data)]
    (Json.num 5) rfl (by decide) rfl rfl rfl rfl

/-- C6 counterexample: the claim says a constrained-model request on a
matched route whose body holds none of the three fields keeps its wire
payload byte-for-byte; the code re-serializes unconditionally, so a body
written with a space after the colon changes on the wire although no field
changed. -/
theorem claim6_counterexample :
    parseTop "\x7b\"model\": \"o3\"\x7d".data =
      some [("model".data, Json.str "o3".data)] ∧
    lookupKV [("model".data, Json.str "o3".data)] tempKey = none ∧
    lookupKV [("model".data, Json.str "o3".data)] topPKey = none ∧
    lookupKV [("model".data, Json.str "o3".data)] maxTokKey = none ∧
    isConstrainedModel [] (modelOf [("model".data, Json.str "o3".data)]) =
      true ∧
    (constrainedModelSanitizer postLit "/v1/chat/completions".data []
      "\x7b\"model\": \"o3\"\x7d".data 15).duringBody ≠
      "\x7b\"model\": \"o3\"\x7d".data := by
  exact ⟨rfl, rfl, rfl, rfl, rfl, by decide⟩

/-- C6 amended: on the constrained path the wire payload is always replaced
by the serialization of the sanitized parsed body — even when no field
changed — so the outbound bytes are the canonical re-serialization rather
than the inbound bytes. -/
theorem claim6_amended (method path extra inBody : List Char) (inLen : Int)
    (kvs : List (List Char × Json)) (hm : method = postLit)
    (hr : routeMatched path = true) (hp : parseTop inBody = some kvs)
    (hc : isConstrainedModel extra (modelOf kvs) = true) :
    (constrainedModelSanitizer method path extra inBody inLen).duringBody =
      marshalV (.obj (sanitizeMap path kvs)) := by
  rw [sanitizer_rewrite method path extra inBody inLen kvs hm hr hp hc]

/-- Witness for the amended C6: the no-op body is replaced by its canonical
re-serialization. -/
theorem claim6_amended_witness :
    (constrainedModelSanitizer postLit "/v1/chat/completions".data []
      "\x7b\"model\": \"o3\"\x7d".data 15).duringBody =
      marshalV (.obj (sanitizeMap "/v1/chat/completions".data
        [("model".data, Json.str "o3".data)])) :=
  claim6_amended postLit "/v1/chat/completions".data []
    "\x7b\"model\": \"o3\"\x7d".data 15
    [("model".data, Json.str "o3".data)] rfl (by decide) rfl rfl

/-- Characters above the whitespace range are not Go whitespace. -/
theorem goSpace_false_of_ge (x : Char) (h : 33 ≤ x.toNat) :
    goSpace x = false := by
  simp only [goSpace, Bool.or_eq_false_iff, decide_eq_false_iff_not]
  refine ⟨⟨⟨⟨⟨?_, ?_⟩, ?_⟩, ?_⟩, ?_⟩, ?_⟩ <;> intro hc <;> subst hc <;>
    exact absurd h (by decide)

/-- Lower-casing is idempotent. -/
theorem toLower_idemChar (c : Char) :
    Char.toLower (Char.toLower c) = Char.toLower c := by
  unfold Char.toLower
  simp only []
  by_cases h : c.toNat ≥ 65 ∧ c.toNat ≤ 90
  · rw [if_pos h]
    have ht : (Char.ofNat (c.toNat + 32)).toNat = c.toNat + 32 :=
      charToNatOfNat _ (by omega)
    rw [if_neg (by rw [ht]; omega)]
  · rw [if_neg h, if_neg h]

/-- Lower-casing does not create or destroy whitespace. -/
theorem goSpace_toLower (c : Char) : goSpace (Char.toLower c) = goSpace c := by
  unfold Char.toLower
  simp only []
  by_cases h : c.toNat ≥ 65 ∧ c.toNat ≤ 90
  · rw [if_pos h]
    have ht : (Char.ofNat (c.toNat + 32)).toNat = c.toNat + 32 :=
      charToNatOfNat _ (by omega)
    rw [goSpace_false_of_ge _ (by rw [ht]; omega),
      goSpace_false_of_ge _ (by omega)]
  · rw [if_neg h]

/-- Lower-casing a whole string is idempotent. -/
theorem toLowerStr_idem (s : List Char) :
    toLowerStr (toLowerStr s) = toLowerStr s := by
  simp [toLowerStr, List.map_map, Function.comp, toLower_idemChar]

/-- Lower-casing commutes with trimming. -/
theorem trimSpace_toLower (s : List Char) :
    trimSpace (toLowerStr s) = toLowerStr (trimSpace s) := by
  have hcomp : (goSpace ∘ Char.toLower) = goSpace := funext goSpace_toLower
  simp [trimSpace, toLowerStr, List.dropWhile_map, hcomp, ← List.map_reverse]

/-- C7 counterexample: the claim says classification is unchanged by adding
surrounding whitespace, for extension-list entries as well.  Revision 1
compares a trimmed extension entry against the UNTRIMMED inbound model
string with `strings.EqualFold`, so adding a leading space flips the
classification of an extension-listed name. -/
theorem claim7_counterexample :
    isConstrainedModel "o9-custom".data "o9-custom".data = true ∧
    isConstrainedModel "o9-custom".data " o9-custom".data = false ∧
    trimSpace " o9-custom".data = trimSpace "o9-custom".data := by
  exact ⟨by decide, by decide, by decide⟩

/-- C7 amended: revision 1's classifier is case-insensitive throughout
(first conjunct) and whitespace-and-case-insensitive on the built-in exact
names and family prefixes, witnessed with an empty extension list (second
conjunct); revision 2's classifier, which normalizes both sides of the
extension comparison, is invariant under any change preserving the
trimmed lower-cased model string (third conjunct).  Only revision 1's
extension-list matching breaks whitespace invariance. -/
theorem claim7_amended :
    (∀ extra model : List Char,
      isConstrainedModel extra (toLowerStr model) =
        isConstrainedModel extra model) ∧
    (∀ model1 model2 : List Char,
      toLowerStr (trimSpace model1) = toLowerStr (trimSpace model2) →
      isConstrainedModel [] model1 = isConstrainedModel [] model2) ∧
    (∀ extra model1 model2 : List Char,
      toLowerStr (trimSpace model1) = toLowerStr (trimSpace model2) →
      isConstrainedModelV2 extra model1 = isConstrainedModelV2 extra model2) := by
  refine ⟨?_, ?_, ?_⟩
  · intro extra model
    have hm : toLowerStr (trimSpace (toLowerStr model)) =
        toLowerStr (trimSpace model) := by
      rw [trimSpace_toLower, toLowerStr_idem]
    simp only [isConstrainedModel, hm, eqFold, toLowerStr_idem]
  · intro model1 model2 h
    simp only [isConstrainedModel, h]
    simp [trimSpace]
  · intro extra model1 model2 h
    simp only [isConstrainedModelV2, h]

/-- Witness for the amended C7: classification of a padded upper-case
variant agrees with the plain name under revision 2, and case-folding is
classification-neutral under revision 1. -/
theorem claim7_amended_witness :
    isConstrainedModelV2 "o9-custom".data " O9-Custom ".data =
      isConstrainedModelV2 "o9-custom".data "o9-custom".data ∧
    isConstrainedModel [] (toLowerStr " GPT-5-Turbo".data) =
      isConstrainedModel [] " GPT-5-Turbo".data :=
  ⟨claim7_amended.2.2 "o9-custom".data " O9-Custom ".data "o9-custom".data
    (by decide),
   claim7_amended.1 [] " GPT-5-Turbo".data⟩

/-- C9 counterexample: the claim says every POST path containing
`/runs/`, `/submit_tool_outputs` or `/instructions` is treated as a
run-style generation route; the code's gate only tests the five prefix
rules, so a POST path containing `/instructions` without one of those
prefixes passes through untouched, its constrained body unrewritten. -/
theorem claim9_counterexample :
    hasSubstr "/v1/x/instructions".data "/instructions".data = true ∧
    routeMatched "/v1/x/instructions".data = false ∧
    (parseTop "\x7b\"max_tokens\":5,\"model\":\"o3\"\x7d".data).map
      (fun kvs => isConstrainedModel [] (modelOf kvs)) = some true ∧
    constrainedModelSanitizer postLit "/v1/x/instructions".data []
      "\x7b\"max_tokens\":5,\"model\":\"o3\"\x7d".data 29 =
      ⟨"\x7b\"max_tokens\":5,\"model\":\"o3\"\x7d".data, 29,
       "\x7b\"max_tokens\":5,\"model\":\"o3\"\x7d".data, 29⟩ := by
  exact ⟨by decide, by decide, rfl, rfl⟩

/-- C9 amended: the route classifier treats a POST request as run-style
exactly through its prefix gates — a `/v1/threads/` or `/v1/assistants`
prefix combined with the `/runs` substring — and on such routes a
constrained model's non-null `max_tokens` is renamed to
`max_completion_tokens`; paths containing `/runs/`,
`/submit_tool_outputs` or `/instructions` without those prefixes are not
matched at all. -/
theorem claim9_amended (method path extra inBody : List Char) (inLen : Int)
    (kvs : List (List Char × Json)) (mt : Json) (hm : method = postLit)
    (hrun : runStyle path = true) (hp : parseTop inBody = some kvs)
    (hc : isConstrainedModel extra (modelOf kvs) = true)
    (hmt : lookupKV kvs maxTokKey = some mt) (hnull : mt.isNull = false) :
    ∃ out, parseTop ((constrainedModelSanitizer method path extra inBody
        inLen).duringBody) = some out ∧
      lookupKV out maxTokKey = none ∧
      (lookupKV kvs maxCompKey = none → lookupKV out maxCompKey = some mt) := by
  have hr : routeMatched path = true := routeMatched_of_runStyle path hrun
  rw [sanitizer_rewrite method path extra inBody inLen kvs hm hr hp hc]
  refine ⟨sanitizeMap path kvs,
    parseTop_marshal _ (sanitizeMap_wf path kvs (parseTop_wf _ _ hp)),
    ?_, ?_⟩ <;> rw [sanitizeMap_run path kvs mt hrun hmt hnull]
  · exact renameTo_lookup_maxTok _ _ _
  · intro habs
    exact renameTo_lookup_dst_none _ _ _ (by decide)
      (by rw [eraseTT_ne kvs _ (by decide) (by decide)]; exact habs)

/-- Witness for the amended C9 at a concrete threads-runs request. -/
theorem claim9_amended_witness :
    ∃ out, parseTop ((constrainedModelSanitizer postLit
        "/v1/threads/t1/runs".data []
        "\x7b\"max_tokens\":7,\"model\":\"o1-mini\"\x7d".data
        34).duringBody) = some out ∧
      lookupKV out maxTokKey = none ∧
      (lookupKV [("max_tokens".data, Json.num 7),
        ("model".data, Json.str "o1-mini".data)] maxCompKey = none →
        lookupKV out maxCompKey = some (Json.num 7)) :=
  claim9_amended postLit "/v1/threads/t1/runs".data []
    "\x7b\"max_tokens\":7,\"model\":\"o1-mini\"\x7d".data 34
    [("max_tokens".data, Json.num 7), ("model".data, Json.str "o1-mini".data)]
    (Json.num 7) rfl (by decide) rfl rfl rfl rfl

end OneApi
